import Mathlib

set_option maxRecDepth 100000

/-! # Verification of the raw-audio format classifier

Shallow embedding of the classifier sources
(`MultiFormatReader.cpp`, `SpecPowerMeter.cpp`, `FormatClassifier.cpp`).

Modelling conventions:
* A C `float` is modelled by `Flt := Option ℚ`: `some q` is a finite value
  (finite float arithmetic is idealized as exact rational arithmetic),
  `none` is a non-finite value (NaN or an infinity).  IEEE division by zero
  yields a non-finite value, hence `fdiv _ (some 0) = none`.
* Files and raw buffers are byte lists (`List ℕ`); the reader position is a
  natural number, `fread` of `n` bytes at position `p` in a file of length
  `L` transfers `min n (L - p)` bytes and advances the position by that much.
* Machine integers that index buffers are naturals; overflow is never
  reachable at the fixed sizes used (S = 1024 samples, 8·S raw bytes).
-/

/-- Endianness tag, mirroring MachineEndianness::EndiannessT in the source. -/
inductive EndiannessT
  | Little
  | Big
deriving DecidableEq, Repr

/-- Sample formats of MultiFormatReader::FormatT. -/
inductive FormatT
  | Int8
  | Int16
  | Int32
  | Uint8
  | Uint16
  | Uint32
  | Float
  | Double
deriving DecidableEq, Repr

/-- Byte width of each sample format, as used by the Read calls in
MultiFormatReader::ReadSamples. -/
def formatWidth : FormatT → ℕ
  | .Int8 => 1
  | .Uint8 => 1
  | .Int16 => 2
  | .Uint16 => 2
  | .Int32 => 4
  | .Uint32 => 4
  | .Float => 4
  | .Double => 8

/-- A (sample format, endianness) candidate, mirroring
FormatClassifier::FormatClassT. -/
structure FormatClassT where
  format : FormatT
  endian : EndiannessT
deriving DecidableEq, Repr

instance : Inhabited FormatClassT := ⟨⟨.Int8, .Little⟩⟩

/-- Model of a C float: `some q` is a finite value, `none` a non-finite one
(NaN or infinity).  Finite arithmetic is idealized as exact. -/
abbrev Flt := Option ℚ

/-- Float addition: finite + finite is exact, any non-finite operand gives a
non-finite result. -/
def fadd : Flt → Flt → Flt
  | some a, some b => some (a + b)
  | _, _ => none

/-- Float subtraction, same conventions as `fadd`. -/
def fsub : Flt → Flt → Flt
  | some a, some b => some (a - b)
  | _, _ => none

/-- Float multiplication, same conventions as `fadd`. -/
def fmul : Flt → Flt → Flt
  | some a, some b => some (a * b)
  | _, _ => none

/-- Float division.  Division by zero produces a non-finite value
(x/0 = ±inf, 0/0 = NaN), hence `none`. -/
def fdiv : Flt → Flt → Flt
  | some a, some b => if b = 0 then none else some (a / b)
  | _, _ => none

/-- The C comparison `a > b` on floats: false whenever either side is NaN
(modelled by `none`). -/
def fgt : Flt → Flt → Bool
  | some a, some b => decide (b < a)
  | _, _ => false

/-- Value of FLT_MAX, the largest finite single-precision float:
(2 − 2^−23)·2^127. -/
def fltMax : ℚ := 2 ^ 128 - 2 ^ 104

/-- Core in-place byte reversal of MultiFormatReader::SwapBytes: each of the
first `len` groups of `w` bytes is reversed; bytes beyond `len·w` are
untouched. -/
def swapCore : ℕ → ℕ → List ℕ → List ℕ
  | _, 0, buf => buf
  | w, len + 1, buf => (buf.take w).reverse ++ swapCore w len (buf.drop w)

/-- MultiFormatReader::SwapBytes with its fatal width check: widths above 8
bytes throw a runtime error, otherwise the buffer groups are reversed. -/
def SwapBytesE (w len : ℕ) (buf : List ℕ) : Except String (List ℕ) :=
  if 8 < w then Except.error "SwapBytes Exception: Format width exceeding 8 bytes."
  else Except.ok (swapCore w len buf)

/-- Reader state: current byte position in the file and the contents of the
destination buffer (the classifier always passes its 8·S byte mRawBuffer). -/
structure RdState where
  pos : ℕ
  raw : List ℕ
deriving DecidableEq, Repr

/-- Overwrite `data.length` bytes of `buf` starting at offset `off`,
leaving the rest unchanged (the effect of writing into caller memory). -/
def overwrite (buf : List ℕ) (off : ℕ) (data : List ℕ) : List ℕ :=
  buf.take off ++ data ++ buf.drop (off + data.length)

/-- Linear branch of MultiFormatReader::Read (stride = 1): one fread of
`w·len` bytes.  fread transfers as many bytes as are available (a trailing
partial item included), returns the count of complete items, and advances
the file position by the bytes transferred. -/
def linearRead (file : List ℕ) (st : RdState) (w len : ℕ) : ℕ × RdState :=
  let bytes := min (w * len) (file.length - st.pos)
  (bytes / w, ⟨st.pos + bytes, overwrite st.raw 0 ((file.drop st.pos).take bytes)⟩)

/-- Scattered branch of MultiFormatReader::Read (stride > 1): for each of the
`len` samples, fread one `w`-byte item into offset `n·w` of the buffer, then
fseek forward `(stride−1)·w` bytes.  The seek also happens at EOF. -/
def scatRead (file : List ℕ) (w stride : ℕ) : ℕ → ℕ → RdState → ℕ × RdState
  | 0, _, st => (0, st)
  | k + 1, n, st =>
    let b := min w (file.length - st.pos)
    let raw2 := overwrite st.raw (n * w) ((file.drop st.pos).take b)
    let r := scatRead file w stride k (n + 1) ⟨st.pos + b + (stride - 1) * w, raw2⟩
    (b / w + r.1, r.2)

/-- MultiFormatReader::Read: dispatch on the stride. -/
def readRaw (file : List ℕ) (st : RdState) (w len stride : ℕ) : ℕ × RdState :=
  if 1 < stride then scatRead file w stride len 0 st
  else linearRead file st w len

/-- Apply the group-wise byte swap to the buffer of a read result when the
swap flag is set. -/
def swapIf (flag : Bool) (w len : ℕ) (r : ℕ × RdState) : ℕ × RdState :=
  if flag then (r.1, ⟨r.2.pos, swapCore w len r.2.raw⟩) else r

/-- Pure model of MultiFormatReader::ReadSamples: dispatch over the format,
reading `len` samples with the given stride and swapping the buffer
group-wise when the file endianness differs from the host endianness.
Width-1 formats are never swapped.  The width check inside SwapBytes cannot
fire here because every dispatched width is at most 8; `ReadSamplesE` below
keeps the check and is proved equal. -/
def readSamplesP (host : EndiannessT) (file : List ℕ) (st : RdState)
    (len stride : ℕ) (fc : FormatClassT) : ℕ × RdState :=
  let swapflag := decide (host ≠ fc.endian)
  match fc.format with
  | .Int8 => readRaw file st 1 len stride
  | .Uint8 => readRaw file st 1 len stride
  | .Int16 => swapIf swapflag 2 len (readRaw file st 2 len stride)
  | .Uint16 => swapIf swapflag 2 len (readRaw file st 2 len stride)
  | .Int32 => swapIf swapflag 4 len (readRaw file st 4 len stride)
  | .Uint32 => swapIf swapflag 4 len (readRaw file st 4 len stride)
  | .Float => swapIf swapflag 4 len (readRaw file st 4 len stride)
  | .Double => swapIf swapflag 8 len (readRaw file st 8 len stride)

/-- Monadic variant of `swapIf` that goes through the checked SwapBytes. -/
def swapIfE (flag : Bool) (w len : ℕ) (r : ℕ × RdState) : Except String (ℕ × RdState) :=
  if flag then (SwapBytesE w len r.2.raw).map (fun b => (r.1, ⟨r.2.pos, b⟩))
  else Except.ok r

/-- MultiFormatReader::ReadSamples with the SwapBytes width check kept as an
Except, faithful to the source exception path. -/
def ReadSamplesE (host : EndiannessT) (file : List ℕ) (st : RdState)
    (len stride : ℕ) (fc : FormatClassT) : Except String (ℕ × RdState) :=
  let swapflag := decide (host ≠ fc.endian)
  match fc.format with
  | .Int8 => Except.ok (readRaw file st 1 len stride)
  | .Uint8 => Except.ok (readRaw file st 1 len stride)
  | .Int16 => swapIfE swapflag 2 len (readRaw file st 2 len stride)
  | .Uint16 => swapIfE swapflag 2 len (readRaw file st 2 len stride)
  | .Int32 => swapIfE swapflag 4 len (readRaw file st 4 len stride)
  | .Uint32 => swapIfE swapflag 4 len (readRaw file st 4 len stride)
  | .Float => swapIfE swapflag 4 len (readRaw file st 4 len stride)
  | .Double => swapIfE swapflag 8 len (readRaw file st 8 len stride)

/-- The fixed candidate list built in the FormatClassifier constructor:
{Int8, Int16, Uint8, Float, Double} × {Little, Big}, little-endian block
first. -/
def theClasses : List FormatClassT :=
  [⟨.Int8, .Little⟩, ⟨.Int16, .Little⟩, ⟨.Uint8, .Little⟩, ⟨.Float, .Little⟩,
   ⟨.Double, .Little⟩,
   ⟨.Int8, .Big⟩, ⟨.Int16, .Big⟩, ⟨.Uint8, .Big⟩, ⟨.Float, .Big⟩, ⟨.Double, .Big⟩]

/-- Assemble a byte group into an unsigned integer in host byte order:
little-endian hosts put the least significant byte first. -/
def bytesVal (host : EndiannessT) (bs : List ℕ) : ℕ :=
  (match host with
   | .Little => bs
   | .Big => bs.reverse).foldr (fun b acc => b + 256 * acc) 0

/-- Reinterpret an unsigned `bits`-wide value as a twos-complement signed
integer, as the C casts in ToFloat do. -/
def decodeSigned (bits v : ℕ) : ℚ :=
  if v < 2 ^ (bits - 1) then (v : ℚ) else ((v : ℚ) - 2 ^ bits)

/-- Decode an IEEE-754 bit pattern with `eb` exponent bits and `mb` mantissa
bits: exponent all-ones is non-finite (infinity or NaN), exponent zero is
subnormal, otherwise normal.  The cast to float in ToFloat is idealized as
value-preserving. -/
def decodeIEEE (eb mb v : ℕ) : Flt :=
  let m := v % 2 ^ mb
  let e := v / 2 ^ mb % 2 ^ eb
  let s := v / 2 ^ (mb + eb) % 2
  let bias : ℤ := 2 ^ (eb - 1) - 1
  if e = 2 ^ eb - 1 then none
  else
    let mag : ℚ :=
      if e = 0 then (m : ℚ) * (2 : ℚ) ^ (1 - bias - (mb : ℤ))
      else ((2 ^ mb + m : ℕ) : ℚ) * (2 : ℚ) ^ ((e : ℤ) - bias - (mb : ℤ))
    if s = 1 then some (-mag) else some mag

/-- Decode one raw sample group as the float value the per-type ToFloat cast
produces.  Integer casts are exact for the widths in the candidate list;
Int32/Uint32 casts are idealized as exact (those formats are decodable but
never used by the classifier). -/
def decodeSample (host : EndiannessT) (fmt : FormatT) (bs : List ℕ) : Flt :=
  match fmt with
  | .Int8 => some (decodeSigned 8 (bytesVal host bs))
  | .Int16 => some (decodeSigned 16 (bytesVal host bs))
  | .Int32 => some (decodeSigned 32 (bytesVal host bs))
  | .Uint8 => some ((bytesVal host bs : ℕ) : ℚ)
  | .Uint16 => some ((bytesVal host bs : ℕ) : ℚ)
  | .Uint32 => some ((bytesVal host bs : ℕ) : ℚ)
  | .Float => decodeIEEE 8 23 (bytesVal host bs)
  | .Double => decodeIEEE 11 52 (bytesVal host bs)

/-- FormatClassifier::ConvertSamples: widen exactly cSiglen = 1024 raw
samples of the candidate format into floats, regardless of how many samples
the last read actually returned. -/
def ConvertSamplesF (host : EndiannessT) (fmt : FormatT) (raw : List ℕ) : List Flt :=
  (List.range 1024).map fun n =>
    decodeSample host fmt ((raw.drop (n * formatWidth fmt)).take (formatWidth fmt))

/-- FormatClassifier::Add over two float buffers (element-wise sum over the
common length, which is always cSiglen at the call sites). -/
def AddF (a b : List Flt) : List Flt := List.zipWith fadd a b

/-- FormatClassifier::Sub: subtract a scalar from every element. -/
def SubF (l : List Flt) (m : Flt) : List Flt := l.map (fun x => fsub x m)

/-- FormatClassifier::Div: divide every element by a scalar.  There is no
guard: the division happens even when the divisor is zero. -/
def DivF (l : List Flt) (d : Flt) : List Flt := l.map (fun x => fdiv x d)

/-- Running sum of squares accumulated by FormatClassifier::Rms before its
final sqrtf.  The source then returns sqrtf of this value; the root is
characterized by `IsSqrtF` below since it is irrational in general. -/
def RmsSqF (l : List Flt) : Flt := l.foldl (fun a x => fadd a (fmul x x)) (some 0)

/-- Characterization of the value sqrtf returns on `s`: a nonnegative finite
root when `s` is finite, non-finite exactly when `s` is. -/
def IsSqrtF (s r : Flt) : Prop :=
  match s, r with
  | some a, some b => 0 ≤ b ∧ b * b = a
  | none, none => True
  | _, _ => False

instance (s r : Flt) : Decidable (IsSqrtF s r) := by
  unfold IsSqrtF
  cases s with
  | none => cases r with
    | none => exact inferInstanceAs (Decidable True)
    | some b => exact inferInstanceAs (Decidable False)
  | some a => cases r with
    | none => exact inferInstanceAs (Decidable False)
    | some b => exact inferInstanceAs (Decidable (0 ≤ b ∧ b * b = a))

/-- FormatClassifier::Mean: accumulate the sum, then divide by the length
(the call sites pass the true buffer length). -/
def MeanF (l : List Flt) : Flt := fdiv (l.foldl fadd (some 0)) (some (l.length : ℚ))

/-- FormatClassifier::FilterPolyphase: window the length-`len` signal by the
precomputed window, then accumulate the `p` consecutive sub-blocks of length
`len / p` into the output. -/
def FilterPolyphaseF (x win : List Flt) (p len : ℕ) : List Flt :=
  let outlen := len / p
  let xw := List.zipWith fmul x win
  (List.range p).foldl (fun y n => AddF y ((xw.drop (n * outlen)).take outlen))
    (List.replicate outlen (some 0))

/-- FormatClassifier::Max with index: fold over the features starting from
−FLT_MAX and index 0, updating on a strictly greater element.  A NaN never
updates because every comparison against it is false. -/
def MaxF (l : List Flt) : Flt × ℕ :=
  l.enum.foldl (fun mi nx => if fgt nx.2 mi.1 then (nx.2, nx.1) else mi)
    (some (-fltMax), 0)

/-- Classification outcome: a candidate and a channel count. -/
structure ResultT where
  format : FormatClassT
  channels : ℕ
deriving DecidableEq, Repr

/-- Decision step at the end of FormatClassifier::Run: argmax over the mono
features, argmax over the stereo features, mono wins only on a strictly
greater maximum (ties go to stereo). -/
def RunDecision (monoFeat stereoFeat : List Flt) : ResultT :=
  let m := MaxF monoFeat
  let s := MaxF stereoFeat
  if fgt m.1 s.1 then ⟨theClasses.getD m.2 default, 1⟩
  else ⟨theClasses.getD s.2 default, 2⟩

/-- Normalized dither onset frequency cDitherF1. -/
def cDitherF1 : ℚ := 31 / 100

/-- Normalized dither level frequency cDitherF2. -/
def cDitherF2 : ℚ := 42 / 100

/-- Value written by the mask loop of FormatClassifier::CalcEqualizerMask for
an index in the first half of the spectrum: the three mutually exclusive ifs
of the source, with `A = powf(10, −cDitherA/20)` kept as a parameter since it
is irrational.  The float comparisons `f < F1` and `f < F2` select the same
index ranges as the exact rational ones at len = 256 (the crossovers 79.36
and 107.52 are far from the float rounding error of the literals). -/
def eqMaskHalf (A : ℚ) (len n : ℕ) : ℚ :=
  let f : ℚ := (n : ℚ) / (len : ℚ)
  let m : ℚ := (A - 1) / (cDitherF2 - cDitherF1)
  if f < cDitherF1 then 1
  else if f < cDitherF2 then m * (f - cDitherF1) + 1
  else A

/-- FormatClassifier::CalcEqualizerMask: the loop writes `eqMaskHalf` at each
index n < len/2 and mirrors it to index len−n−1; for the even length used
(len = S/P = 256) every index is written exactly once. -/
def CalcEqualizerMask (A : ℚ) (len : ℕ) : List ℚ :=
  (List.range len).map fun k =>
    if k < len / 2 then eqMaskHalf A len k else eqMaskHalf A len (len - k - 1)

/-- SpecPowerMeter::Freq2Bin: floor of f·N, then the C `%=` operator, which
truncates toward zero (Int.tmod). -/
def Freq2Bin (N : ℤ) (f : ℚ) : ℤ := (Int.floor (f * (N : ℚ))).tmod N

/-- Band edge to bin computation at the head of SpecPowerMeter::CalcPower:
low and high bins from the band edges, with the high bin bumped up by one
exactly when the two coincide. -/
def CalcPowerBins (N : ℤ) (fc bw : ℚ) : ℤ × ℤ :=
  let loBin := Freq2Bin N (fc - bw / 2)
  let hiBin := Freq2Bin N (fc + bw / 2)
  if loBin = hiBin then (loBin, loBin + 1) else (loBin, hiBin)

/-- Index sequence of the C loop `for (n = loBin; n < hiBin; n++)` in
SpecPowerMeter::CalcBinPower: the integers of the half-open range
[loBin, hiBin), in order; empty when hiBin ≤ loBin. -/
def binRange (loBin hiBin : ℤ) : List ℤ :=
  (List.range (hiBin - loBin).toNat).map fun k : ℕ => loBin + (k : ℤ)

/-- Access to a spectrum array at the int loop index of CalcBinPower.  A
negative index would be undefined behaviour in C and is modelled as a
non-finite read; the classifier only ever produces nonnegative bins. -/
def binAt (l : List Flt) (n : ℤ) : Flt :=
  if n < 0 then none else l.getD n.toNat none

/-- SpecPowerMeter::CalcBinPower: accumulate, over the half-open bin range
[loBin, hiBin), the squared magnitudes of the spectrum — with the equalizer
mask multiplied into the real and imaginary parts before squaring when the
equalizer is enabled, and the plain squares otherwise (the two loops of the
source). -/
def CalcBinPower (eqEnabled : Bool) (eqMask fr fi : List Flt) (loBin hiBin : ℤ) : Flt :=
  if eqEnabled then
    (binRange loBin hiBin).foldl
      (fun pwr n =>
        fadd pwr (fadd
          (fmul (fmul (binAt fr n) (binAt eqMask n)) (fmul (binAt fr n) (binAt eqMask n)))
          (fmul (fmul (binAt fi n) (binAt eqMask n)) (fmul (binAt fi n) (binAt eqMask n)))))
      (some 0)
  else
    (binRange loBin hiBin).foldl
      (fun pwr n =>
        fadd pwr (fadd (fmul (binAt fr n) (binAt fr n)) (fmul (binAt fi n) (binAt fi n))))
      (some 0)

/-- SpecPowerMeter::CalcPower: map the band edges to bins (with the
coincidence bump) and sum the in-band power over that half-open bin range.
The FFT is the external collaborator of this component, so the spectrum it
would produce enters as the fr and fi arrays; the equalizer enable flag and
mask are the meter state set by the classifier. -/
def CalcPowerF (eqEnabled : Bool) (eqMask fr fi : List Flt) (N : ℤ) (fc bw : ℚ) : Flt :=
  CalcBinPower eqEnabled eqMask fr fi (CalcPowerBins N fc bw).1 (CalcPowerBins N fc bw).2

/-- Loop body iterations of FormatClassifier::ReadSignal after the first
window: at iteration index n (n = 1, …, 31), read an S-sample window; if the
read was full, convert it, add it element-wise into the signal buffer, and
do a throwaway decoherence read of n+1 samples; a short read ends the loop.
The fuel argument is 32 − n, so the loop stops after iteration n = 31. -/
def rsLoop (host : EndiannessT) (file : List ℕ) (fc : FormatClassT) (stride : ℕ) :
    ℕ → ℕ → RdState → List Flt → List Flt
  | 0, _, _, sig => sig
  | fuel + 1, n, st, sig =>
    let r := readSamplesP host file st 1024 stride fc
    if r.1 = 1024 then
      let aux := ConvertSamplesF host fc.format r.2.raw
      let st2 := (readSamplesP host file r.2 (n + 1) stride fc).2
      rsLoop host file fc stride fuel (n + 1) st2 (AddF sig aux)
    else sig

/-- The list of windows the loop of ReadSignal integrates: one entry per full
read, in order, ending at the first short read or after 31 entries.  This
mirrors `rsLoop` and is the explicit summand list of the integration. -/
def rsWindows (host : EndiannessT) (file : List ℕ) (fc : FormatClassT) (stride : ℕ) :
    ℕ → ℕ → RdState → List (List Flt)
  | 0, _, _ => []
  | fuel + 1, n, st =>
    let r := readSamplesP host file st 1024 stride fc
    if r.1 = 1024 then
      ConvertSamplesF host fc.format r.2.raw ::
        rsWindows host file fc stride fuel (n + 1)
          (readSamplesP host file r.2 (n + 1) stride fc).2
    else []

/-- FormatClassifier::ReadSignal: reset to the signal start, read and convert
the first window unconditionally (even a short or empty read is converted,
using whatever bytes the raw buffer holds), then run the integration loop
while reads stay full, up to cNumInts = 32 windows in total. -/
def ReadSignal (host : EndiannessT) (file : List ℕ) (fc : FormatClassT)
    (stride signalStart : ℕ) (raw0 : List ℕ) : List Flt :=
  let r := readSamplesP host file ⟨signalStart, raw0⟩ 1024 stride fc
  let sig := ConvertSamplesF host fc.format r.2.raw
  if r.1 = 1024 then rsLoop host file fc stride 31 1 r.2 sig else sig

/-- First window of ReadSignal: conversion of the raw buffer right after the
first read, performed whatever the count of samples actually read. -/
def ReadSignalFirst (host : EndiannessT) (file : List ℕ) (fc : FormatClassT)
    (stride signalStart : ℕ) (raw0 : List ℕ) : List Flt :=
  ConvertSamplesF host fc.format
    (readSamplesP host file ⟨signalStart, raw0⟩ 1024 stride fc).2.raw

/-- Windows integrated by ReadSignal beyond the first one. -/
def ReadSignalRest (host : EndiannessT) (file : List ℕ) (fc : FormatClassT)
    (stride signalStart : ℕ) (raw0 : List ℕ) : List (List Flt) :=
  let r := readSamplesP host file ⟨signalStart, raw0⟩ 1024 stride fc
  if r.1 = 1024 then rsWindows host file fc stride 31 1 r.2 else []

/-- Squared minimum-RMS threshold: the source compares sqrtf(Σx²) against
cMinRms = 1e−12; comparing Σx² against cMinRms² is equivalent since both
sides are nonnegative. -/
def cMinRmsSq : ℚ := 1 / 10 ^ 24

/-- Signal test of FindSignalStart on the current raw buffer: convert it as
(Uint8, Little) into the signal buffer and compare the RMS of the first 64
floats against cMinRms (in squared form).  Uint8 data is always finite, so
the non-finite branch is unreachable. -/
def rmsHitRaw (raw : List ℕ) : Bool :=
  match RmsSqF ((ConvertSamplesF .Little .Uint8 raw).take 64) with
  | some s => decide (cMinRmsSq ≤ s)
  | none => false

/-- The probe class FindSignalStart reads with. -/
def probeClass : FormatClassT := ⟨.Uint8, .Little⟩

/-- One grid advance of FindSignalStart: cSigSearchGridSize = 32 consecutive
reads of cSiglen = 1024 probe samples; the returned count is the one of the
last read, as the loop variable actRead keeps only that. -/
def gridRead (file : List ℕ) : ℕ → RdState → ℕ × RdState
  | 0, st => (0, st)
  | 1, st => readSamplesP .Little file st 1024 1 probeClass
  | k + 2, st => gridRead file (k + 1) (readSamplesP .Little file st 1024 1 probeClass).2

/-- Search loop of FindSignalStart.  On entry the raw buffer holds a fully
read window.  If its RMS reaches the threshold the start offset is
cHeaderSkip + i·cSigSearchGridSize·cSiglen; otherwise a grid advance is made
and, if its last read was full, the search repeats with i+1; a short read
ends the search with the default offset cHeaderSkip = 1024.  The fuel bounds
the iteration count; file.length + 1 is always enough since every iteration
consumes 32768 bytes of the file. -/
def fssLoop (file : List ℕ) : ℕ → ℕ → RdState → ℕ
  | 0, _, _ => 1024
  | fuel + 1, i, st =>
    if rmsHitRaw st.raw then 1024 + i * 32768
    else
      let g := gridRead file 32 st
      if g.1 = 1024 then fssLoop file fuel (i + 1) g.2 else 1024

/-- FormatClassifier::FindSignalStart: skip cHeaderSkip = 1024 header bytes
with a dummy probe read, zero the raw buffer, read a first window and search
for the first window whose RMS reaches cMinRms.  EOF anywhere leaves the
start offset at cHeaderSkip.  The NaN exit of the source loop is unreachable
because Uint8 data converts to small finite floats. -/
def FindSignalStart (file : List ℕ) (raw0 : List ℕ) : ℕ :=
  let h := readSamplesP .Little file ⟨0, raw0⟩ 1024 1 probeClass
  let st1 : RdState := ⟨h.2.pos, List.replicate 8192 0⟩
  let r := readSamplesP .Little file st1 1024 1 probeClass
  if r.1 = 1024 then fssLoop file (file.length + 1) 0 r.2 else 1024

/-- Fold plus DC removal composite from FormatClassifier::Run (both passes):
polyphase filtering with cPolyTaps = 4 over cSiglen = 1024, then subtraction
of the scalar mean of the folded buffer.  The normalization that follows in
Run divides this buffer by the Rms value. -/
def preprocessFoldDC (sig win : List Flt) : List Flt :=
  SubF (FilterPolyphaseF sig win 4 1024) (MeanF (FilterPolyphaseF sig win 4 1024))

/-- A finite float value no smaller than −FLT_MAX: every value a float
feature vector can actually hold short of NaN and −infinity (the feature
ratios of the classifier are nonnegative or NaN, so this covers them). -/
def finiteGe : Flt → Prop
  | some q => -fltMax ≤ q
  | none => False

/-- The probe window of FindSignalStart at grid index j sits at byte offset
cHeaderSkip + j·32768; this is its signal test. -/
def windowHit (file : List ℕ) (j : ℕ) : Bool :=
  rmsHitRaw ((file.drop (1024 + j * 32768)).take 1024)

/-- Concrete signal buffer used to instantiate the preprocessing invariants:
four nonzero samples and silence elsewhere. -/
def c5sigQ : List ℚ := [1, -1, 7, -7] ++ List.replicate 1020 0

/-- Concrete all-ones window for the same instantiation. -/
def c5winQ : List ℚ := List.replicate 1024 1

/-- Value of the fold of `c5sigQ` under `c5winQ`. -/
def c5y : List Flt := [some 1, some (-1), some 7, some (-7)] ++ List.replicate 252 (some 0)

/-- Concrete file with 1024 bytes of silence padding and then 1024 nonzero
bytes, used to instantiate the signal search. -/
def c4fileA : List ℕ := List.replicate 1024 0 ++ List.replicate 1024 3

/-- Concrete all-silence file of 2048 bytes. -/
def c4fileB : List ℕ := List.replicate 2048 0

/-! ## Byte swap lemmas (C8, C9) -/

theorem swapCore_nil (w len : ℕ) : swapCore w len [] = [] := by
  induction len with
  | zero => rfl
  | succ n ih => simp [swapCore, ih]

theorem swapCore_involution (w len : ℕ) (buf : List ℕ) :
    swapCore w len (swapCore w len buf) = buf := by
  induction len generalizing buf with
  | zero => rfl
  | succ n ih =>
    by_cases h : w ≤ buf.length
    · have ht : (buf.take w).length = w := by
        simp [List.length_take, Nat.min_eq_left h]
      have htr : (buf.take w).reverse.length = w := by simp [ht]
      calc swapCore w (n + 1) (swapCore w (n + 1) buf)
          = ((((buf.take w).reverse ++ swapCore w n (buf.drop w)).take w).reverse ++
              swapCore w n (((buf.take w).reverse ++ swapCore w n (buf.drop w)).drop w)) := rfl
        _ = buf := by
            rw [List.take_left' htr, List.drop_left' htr, List.reverse_reverse, ih]
            exact List.take_append_drop w buf
    · push_neg at h
      have hd : buf.drop w = [] := List.drop_of_length_le (Nat.le_of_lt h)
      have ht : buf.take w = buf := List.take_of_length_le (Nat.le_of_lt h)
      have h1 : swapCore w (n + 1) buf = buf.reverse := by
        simp [swapCore, hd, ht, swapCore_nil]
      rw [h1]
      have hd2 : buf.reverse.drop w = [] := by
        apply List.drop_of_length_le
        simpa using Nat.le_of_lt h
      have ht2 : buf.reverse.take w = buf.reverse := by
        apply List.take_of_length_le
        simpa using Nat.le_of_lt h
      simp [swapCore, hd2, ht2, swapCore_nil]

theorem swapCore_one (len : ℕ) (buf : List ℕ) : swapCore 1 len buf = buf := by
  induction len generalizing buf with
  | zero => rfl
  | succ n ih =>
    cases buf with
    | nil => simp [swapCore, swapCore_nil]
    | cons a t => simp [swapCore, ih]

/-- C8: for every buffer and every group width W in {1, 2, 4, 8}, applying
the byte swap twice with the same width restores the original buffer
(involution); for W = 1 a single swap is the identity; and ReadSamples for
the width-1 formats Int8 and Uint8 yields the same result whatever
endianness is requested, since the dispatch never swaps width-1 data. -/
theorem c8_swap_involution :
    (∀ (buf : List ℕ) (len : ℕ),
      swapCore 1 len (swapCore 1 len buf) = buf ∧
      swapCore 2 len (swapCore 2 len buf) = buf ∧
      swapCore 4 len (swapCore 4 len buf) = buf ∧
      swapCore 8 len (swapCore 8 len buf) = buf ∧
      swapCore 1 len buf = buf) ∧
    (∀ (host : EndiannessT) (file : List ℕ) (st : RdState) (len stride : ℕ)
      (e1 e2 : EndiannessT),
      readSamplesP host file st len stride ⟨.Int8, e1⟩ =
        readSamplesP host file st len stride ⟨.Int8, e2⟩ ∧
      readSamplesP host file st len stride ⟨.Uint8, e1⟩ =
        readSamplesP host file st len stride ⟨.Uint8, e2⟩) := by
  constructor
  · intro buf len
    exact ⟨swapCore_involution 1 len buf, swapCore_involution 2 len buf,
      swapCore_involution 4 len buf, swapCore_involution 8 len buf,
      swapCore_one len buf⟩
  · intro host file st len stride e1 e2
    exact ⟨rfl, rfl⟩

/-- C9: SwapBytes raises its fatal error exactly when the requested group
width exceeds 8 bytes; through ReadSamples the checked reader agrees with
the unchecked one on every dispatched format (all widths are at most 8), so
the error is unreachable for any format, in particular for the fixed
candidate list of the classifier, whose widths are all at most 8. -/
theorem c9_swap_width_guard :
    (∀ (w len : ℕ) (buf : List ℕ),
      (∃ e, SwapBytesE w len buf = Except.error e) ↔ 8 < w) ∧
    (∀ (host : EndiannessT) (file : List ℕ) (st : RdState) (len stride : ℕ)
      (fc : FormatClassT),
      ReadSamplesE host file st len stride fc =
        Except.ok (readSamplesP host file st len stride fc)) ∧
    (theClasses.all fun c => decide (formatWidth c.format ≤ 8)) = true := by
  refine ⟨?_, ?_, by decide⟩
  · intro w len buf
    constructor
    · rintro ⟨e, he⟩
      by_contra hw
      simp [SwapBytesE, hw] at he
    · intro hw
      refine ⟨"SwapBytes Exception: Format width exceeding 8 bytes.", ?_⟩
      simp [SwapBytesE, hw]
  · intro host file st len stride fc
    have hswap : ∀ (flag : Bool) (w len2 : ℕ) (r : ℕ × RdState), w ≤ 8 →
        swapIfE flag w len2 r = Except.ok (swapIf flag w len2 r) := by
      intro flag w len2 r hw
      cases flag with
      | false => rfl
      | true =>
        simp [swapIfE, swapIf, SwapBytesE, Nat.not_lt.mpr hw, Except.map]
    cases hfc : fc.format <;>
      simp [ReadSamplesE, readSamplesP, hfc, hswap _ 2 _ _ (by norm_num),
        hswap _ 4 _ _ (by norm_num), hswap _ 8 _ _ (by norm_num)]

/-- C9 witness: the guard fires at width 9, and the checked reader returns
ok on a concrete Double big-endian read. -/
theorem c9_swap_width_guard_witness :
    (∃ e, SwapBytesE 9 1 [0, 1, 2, 3, 4, 5, 6, 7, 8] = Except.error e) ∧
    ReadSamplesE .Little [3, 1, 4] ⟨0, List.replicate 16 0⟩ 2 1 ⟨.Double, .Big⟩ =
      Except.ok (readSamplesP .Little [3, 1, 4] ⟨0, List.replicate 16 0⟩ 2 1 ⟨.Double, .Big⟩) :=
  ⟨(c9_swap_width_guard.1 9 1 [0, 1, 2, 3, 4, 5, 6, 7, 8]).mpr (by decide),
   c9_swap_width_guard.2.1 .Little [3, 1, 4] ⟨0, List.replicate 16 0⟩ 2 1 ⟨.Double, .Big⟩⟩

/-! ## Normalization (C1) -/

/-- C1 counterexample: on the silent window (all-zero signal), the folded
and DC-removed buffer is all zeros, its sum of squares is 0 (so the computed
rms is sqrtf 0 = 0), yet the code does not leave the buffer unnormalized: it
divides by the zero rms, turning every element into a non-finite value, so
the buffer changes.  The claimed skip does not exist in the source. -/
theorem c1_counterexample :
    RmsSqF (preprocessFoldDC (List.replicate 1024 (some 0)) (List.replicate 1024 (some 1))) =
      some 0 ∧
    IsSqrtF
      (RmsSqF (preprocessFoldDC (List.replicate 1024 (some 0)) (List.replicate 1024 (some 1))))
      (some 0) ∧
    DivF (preprocessFoldDC (List.replicate 1024 (some 0)) (List.replicate 1024 (some 1)))
        (some 0) ≠
      preprocessFoldDC (List.replicate 1024 (some 0)) (List.replicate 1024 (some 1)) := by
  have hz : preprocessFoldDC (List.replicate 1024 (some 0)) (List.replicate 1024 (some 1)) =
      List.replicate 256 (some 0) := by
    unfold preprocessFoldDC
    have hy : FilterPolyphaseF (List.replicate 1024 (some 0)) (List.replicate 1024 (some 1))
        4 1024 = List.replicate 256 (some 0) := by with_unfolding_all rfl
    rw [hy]
    have hm : MeanF (List.replicate 256 (some (0:ℚ))) = some 0 := by with_unfolding_all rfl
    rw [hm]
    with_unfolding_all rfl
  rw [hz]
  have hrms : RmsSqF (List.replicate 256 (some (0:ℚ))) = some 0 := by with_unfolding_all rfl
  have hdiv : DivF (List.replicate 256 (some (0:ℚ))) (some 0) = List.replicate 256 none := by
    with_unfolding_all rfl
  refine ⟨hrms, by rw [hrms]; exact ⟨le_refl 0, by norm_num⟩, ?_⟩
  rw [hdiv]
  intro h
  have h0 : (List.replicate 256 (none : Flt)).getD 0 none =
      (List.replicate 256 (some (0:ℚ))).getD 0 none := by rw [h]
  have hl : (List.replicate 256 (none : Flt)).getD 0 none = none := by with_unfolding_all rfl
  have hr2 : (List.replicate 256 (some (0:ℚ))).getD 0 none = some 0 := by with_unfolding_all rfl
  rw [hl, hr2] at h0
  exact Option.noConfusion h0

/-- C1 amended: the normalization division is never skipped.  Div divides
every one of the buffer elements by the rms value unconditionally; when the
rms is zero every element of the result is non-finite (0/0 is NaN) rather
than the buffer being left unnormalized, and for a nonzero finite rms each
element is indeed divided by it. -/
theorem c1_normalization_unconditional (buf : List Flt) (r : Flt) :
    (DivF buf r).length = buf.length ∧
    (∀ i, i < buf.length → (DivF buf r).getD i none = fdiv (buf.getD i none) r) ∧
    (r = some 0 → ∀ x ∈ DivF buf r, x = none) ∧
    (∀ q : ℚ, q ≠ 0 → r = some q → ∀ i, i < buf.length → ∀ v : ℚ,
      buf.getD i none = some v → (DivF buf r).getD i none = some (v / q)) := by
  have hget : ∀ i, (DivF buf r).getD i none = fdiv (buf.getD i none) r := fun i =>
    List.getD_map buf none (fun x => fdiv x r)
  refine ⟨List.length_map buf _, fun i _ => hget i, ?_, ?_⟩
  · rintro rfl x hx
    obtain ⟨a, _, rfl⟩ := List.mem_map.mp hx
    cases a with
    | none => rfl
    | some v => simp [fdiv]
  · rintro q hq rfl i _ v hv
    rw [hget i, hv]
    simp [fdiv, hq]

/-- C1 witness: the amended statement evaluated on a concrete buffer and a
concrete nonzero rms. -/
theorem c1_normalization_witness :
    (DivF [some 6, none] (some 2)).getD 0 none = some 3 ∧
    (DivF [some 6, none] (some 2)).length = 2 := by
  have h := c1_normalization_unconditional [some 6, none] (some 2)
  constructor
  · have h36 := h.2.2.2 2 (by norm_num) rfl 0 (by norm_num) 6 rfl
    rw [h36]
    norm_num
  · exact h.1

/-! ## Equalizer mask (C7) -/

theorem calcMask_getD (A : ℚ) (n : ℕ) (h : n < 256) :
    (CalcEqualizerMask A 256).getD n 0 =
      if n < 128 then eqMaskHalf A 256 n else eqMaskHalf A 256 (256 - n - 1) := by
  unfold CalcEqualizerMask
  have hlen : n < ((List.range 256).map fun k =>
      if k < 256 / 2 then eqMaskHalf A 256 k else eqMaskHalf A 256 (256 - k - 1)).length := by
    simpa using h
  rw [List.getD_eq_getElem _ _ hlen]
  simp [List.getElem_map, List.getElem_range]

/-- C7: for every attenuation value A (the source computes
A = powf(10, −12/20), an irrational the embedding keeps symbolic), the mask
over length N = 256 is 1 below F1 = 0.31, follows the linear ramp
1 + ((A−1)/(F2−F1))·(f−F1) on [F1, F2), equals A from F2 = 0.42 on, for
every index n < N/2 with f = n/N; and the second half mirrors the first, so
eqBuffer[n] = eqBuffer[N−1−n] for every n < N. -/
theorem c7_equalizer_mask (A : ℚ) :
    (CalcEqualizerMask A 256).length = 256 ∧
    (∀ n : ℕ, n < 128 →
      (((n : ℚ) / 256 < cDitherF1 → (CalcEqualizerMask A 256).getD n 0 = 1) ∧
       (cDitherF1 ≤ (n : ℚ) / 256 → (n : ℚ) / 256 < cDitherF2 →
         (CalcEqualizerMask A 256).getD n 0 =
           1 + (A - 1) / (cDitherF2 - cDitherF1) * ((n : ℚ) / 256 - cDitherF1)) ∧
       (cDitherF2 ≤ (n : ℚ) / 256 → (CalcEqualizerMask A 256).getD n 0 = A))) ∧
    (∀ n : ℕ, n < 256 →
      (CalcEqualizerMask A 256).getD n 0 = (CalcEqualizerMask A 256).getD (255 - n) 0) := by
  refine ⟨by simp [CalcEqualizerMask], ?_, ?_⟩
  · intro n hn
    have h256 : n < 256 := by omega
    have hcast : ((256 : ℕ) : ℚ) = (256 : ℚ) := by norm_num
    rw [calcMask_getD A n h256, if_pos hn]
    unfold eqMaskHalf
    rw [hcast]
    refine ⟨fun h1 => by rw [if_pos h1], fun h1 h2 => ?_, fun h2 => ?_⟩
    · rw [if_neg (not_lt.mpr h1), if_pos h2]
      ring
    · rw [if_neg (not_lt.mpr (le_trans ?_ h2)), if_neg (not_lt.mpr h2)]
      unfold cDitherF1 cDitherF2
      norm_num
  · intro n hn
    by_cases hh : n < 128
    · have hm : ¬(255 - n < 128) := by omega
      have hmlt : 255 - n < 256 := by omega
      rw [calcMask_getD A n hn, if_pos hh, calcMask_getD A (255 - n) hmlt, if_neg hm]
      congr 1
      omega
    · have hm : 255 - n < 128 := by omega
      have hmlt : 255 - n < 256 := by omega
      rw [calcMask_getD A n hn, if_neg hh, calcMask_getD A (255 - n) hmlt, if_pos hm]
      congr 1
      omega

/-- C7 witness: the mask at A = 1/4 evaluated in each region and one
mirrored pair. -/
theorem c7_equalizer_mask_witness :
    (CalcEqualizerMask (1/4) 256).getD 0 0 = 1 ∧
    (CalcEqualizerMask (1/4) 256).getD 100 0 =
      1 + ((1/4 : ℚ) - 1) / (cDitherF2 - cDitherF1) * ((100 : ℚ) / 256 - cDitherF1) ∧
    (CalcEqualizerMask (1/4) 256).getD 120 0 = 1/4 ∧
    (CalcEqualizerMask (1/4) 256).getD 30 0 = (CalcEqualizerMask (1/4) 256).getD 225 0 := by
  have h := c7_equalizer_mask (1/4)
  refine ⟨(h.2.1 0 (by norm_num)).1 (by unfold cDitherF1; norm_num),
    (h.2.1 100 (by norm_num)).2.1 (by unfold cDitherF1; norm_num)
      (by unfold cDitherF2; norm_num),
    (h.2.1 120 (by norm_num)).2.2 (by unfold cDitherF2; norm_num), ?_⟩
  have h30 := h.2.2 30 (by norm_num)
  simpa using h30

/-! ## Subband bin computation and in-band power (C3) -/

theorem fadd_some (a b : ℚ) : fadd (some a) (some b) = some (a + b) := rfl

theorem fmul_some (a b : ℚ) : fmul (some a) (some b) = some (a * b) := rfl

theorem binAt_map_some (l : List ℚ) (n : ℤ) (hn : 0 ≤ n) (h : n.toNat < l.length) :
    binAt (l.map some) n = some (l.getD n.toNat 0) := by
  unfold binAt
  rw [if_neg (by omega)]
  rw [List.getD_eq_getElem _ _ (by simpa using h), List.getD_eq_getElem _ _ h]
  simp

theorem binRange_bounds (loBin hiBin : ℤ) (n : ℤ) (hn : n ∈ binRange loBin hiBin) :
    loBin ≤ n ∧ n < hiBin := by
  unfold binRange at hn
  obtain ⟨k, hk, rfl⟩ := List.mem_map.mp hn
  have hk0 : (0 : ℤ) ≤ (k : ℤ) := Int.natCast_nonneg k
  have hk2 : (k : ℤ) < hiBin - loBin := Int.lt_toNat.mp (List.mem_range.mp hk)
  constructor
  · omega
  · omega

theorem calcBinPower_disabled_sum (eqMask : List Flt) (frq fiq : List ℚ)
    (loBin hiBin : ℤ) (hlo : 0 ≤ loBin) (hfr : hiBin.toNat ≤ frq.length)
    (hfi : hiBin.toNat ≤ fiq.length) :
    CalcBinPower false eqMask (frq.map some) (fiq.map some) loBin hiBin =
      some (((binRange loBin hiBin).map fun n =>
        frq.getD n.toNat 0 * frq.getD n.toNat 0 +
        fiq.getD n.toNat 0 * fiq.getD n.toNat 0).sum) := by
  unfold CalcBinPower
  rw [if_neg (by simp)]
  have hb : ∀ n ∈ binRange loBin hiBin,
      0 ≤ n ∧ n.toNat < frq.length ∧ n.toNat < fiq.length := by
    intro n hn
    have := binRange_bounds loBin hiBin n hn
    omega
  have main : ∀ l : List ℤ,
      (∀ n ∈ l, 0 ≤ n ∧ n.toNat < frq.length ∧ n.toNat < fiq.length) →
      ∀ a : ℚ,
      l.foldl (fun pwr n => fadd pwr (fadd
          (fmul (binAt (frq.map some) n) (binAt (frq.map some) n))
          (fmul (binAt (fiq.map some) n) (binAt (fiq.map some) n)))) (some a) =
      some (a + (l.map fun n =>
        frq.getD n.toNat 0 * frq.getD n.toNat 0 +
        fiq.getD n.toNat 0 * fiq.getD n.toNat 0).sum) := by
    intro l
    induction l with
    | nil => intro _ a; simp
    | cons n t ih =>
      intro hb2 a
      obtain ⟨h0, h1, h2⟩ := hb2 n (by simp)
      simp only [List.foldl_cons, List.map_cons, List.sum_cons]
      rw [binAt_map_some frq n h0 h1, binAt_map_some fiq n h0 h2]
      simp only [fmul_some, fadd_some]
      rw [ih (fun m hm => hb2 m (by simp [hm])) _]
      congr 1
      ring
  rw [main (binRange loBin hiBin) hb 0, zero_add]

theorem calcBinPower_enabled_sum (eqq frq fiq : List ℚ)
    (loBin hiBin : ℤ) (hlo : 0 ≤ loBin) (heq : hiBin.toNat ≤ eqq.length)
    (hfr : hiBin.toNat ≤ frq.length) (hfi : hiBin.toNat ≤ fiq.length) :
    CalcBinPower true (eqq.map some) (frq.map some) (fiq.map some) loBin hiBin =
      some (((binRange loBin hiBin).map fun n =>
        frq.getD n.toNat 0 * eqq.getD n.toNat 0 * (frq.getD n.toNat 0 * eqq.getD n.toNat 0) +
        fiq.getD n.toNat 0 * eqq.getD n.toNat 0 *
          (fiq.getD n.toNat 0 * eqq.getD n.toNat 0)).sum) := by
  unfold CalcBinPower
  rw [if_pos rfl]
  have hb : ∀ n ∈ binRange loBin hiBin,
      0 ≤ n ∧ n.toNat < eqq.length ∧ n.toNat < frq.length ∧ n.toNat < fiq.length := by
    intro n hn
    have := binRange_bounds loBin hiBin n hn
    omega
  have main : ∀ l : List ℤ,
      (∀ n ∈ l, 0 ≤ n ∧ n.toNat < eqq.length ∧ n.toNat < frq.length ∧
        n.toNat < fiq.length) →
      ∀ a : ℚ,
      l.foldl (fun pwr n => fadd pwr (fadd
          (fmul (fmul (binAt (frq.map some) n) (binAt (eqq.map some) n))
            (fmul (binAt (frq.map some) n) (binAt (eqq.map some) n)))
          (fmul (fmul (binAt (fiq.map some) n) (binAt (eqq.map some) n))
            (fmul (binAt (fiq.map some) n) (binAt (eqq.map some) n))))) (some a) =
      some (a + (l.map fun n =>
        frq.getD n.toNat 0 * eqq.getD n.toNat 0 * (frq.getD n.toNat 0 * eqq.getD n.toNat 0) +
        fiq.getD n.toNat 0 * eqq.getD n.toNat 0 *
          (fiq.getD n.toNat 0 * eqq.getD n.toNat 0)).sum) := by
    intro l
    induction l with
    | nil => intro _ a; simp
    | cons n t ih =>
      intro hb2 a
      obtain ⟨h0, h1, h2, h3⟩ := hb2 n (by simp)
      simp only [List.foldl_cons, List.map_cons, List.sum_cons]
      rw [binAt_map_some eqq n h0 h1, binAt_map_some frq n h0 h2,
        binAt_map_some fiq n h0 h3]
      simp only [fmul_some, fadd_some]
      rw [ih (fun m hm => hb2 m (by simp [hm])) _]
      congr 1
      ring
  rw [main (binRange loBin hiBin) hb 0, zero_add]

/-- C3: Freq2Bin maps a nonnegative normalized frequency to
floor(f·N) mod N (in that range the C truncating remainder agrees with the
mathematical one); CalcPower bumps the high bin to loBin + 1 exactly when
the two band-edge bins coincide; the three band requests the classifier
issues at N = 256 — (0.25, 0.5), (0.45, 0.1), (0.40, 0.2) — give bins
(0, 128), (102, 128), (76, 128), all satisfying 0 ≤ lo < hi ≤ 256; the loop
of CalcBinPower runs over exactly the half-open integer range
[loBin, hiBin); its result is the sum, over that range, of the squared
spectral magnitudes — plain with the equalizer disabled, mask-multiplied
with it enabled; and CalcPower routes each of the three classifier requests
into CalcBinPower at those bins.  The literal rational band edges produce
the same bins as the single-precision float edges the source computes (the
products 102.4, 128 and 76.8 are far from the float rounding error of the
literals). -/
theorem c3_calcpower_bins :
    (∀ f : ℚ, 0 ≤ f → Freq2Bin 256 f = Int.floor (f * 256) % 256) ∧
    (∀ (N : ℤ) (fc bw : ℚ),
      (Freq2Bin N (fc - bw / 2) = Freq2Bin N (fc + bw / 2) →
        CalcPowerBins N fc bw = (Freq2Bin N (fc - bw / 2), Freq2Bin N (fc - bw / 2) + 1)) ∧
      (Freq2Bin N (fc - bw / 2) ≠ Freq2Bin N (fc + bw / 2) →
        CalcPowerBins N fc bw = (Freq2Bin N (fc - bw / 2), Freq2Bin N (fc + bw / 2)))) ∧
    (CalcPowerBins 256 (1/4) (1/2) = (0, 128) ∧
     CalcPowerBins 256 (45/100) (1/10) = (102, 128) ∧
     CalcPowerBins 256 (40/100) (2/10) = (76, 128)) ∧
    (∀ pr ∈ [CalcPowerBins 256 (1/4) (1/2), CalcPowerBins 256 (45/100) (1/10),
        CalcPowerBins 256 (40/100) (2/10)],
      0 ≤ pr.1 ∧ pr.1 < pr.2 ∧ pr.2 ≤ 256) ∧
    (∀ loBin hiBin : ℤ, loBin ≤ hiBin →
      (binRange loBin hiBin).length = (hiBin - loBin).toNat ∧
      (∀ n : ℤ, n ∈ binRange loBin hiBin ↔ loBin ≤ n ∧ n < hiBin)) ∧
    (∀ (eqMask : List Flt) (frq fiq : List ℚ) (loBin hiBin : ℤ),
      0 ≤ loBin → hiBin.toNat ≤ frq.length → hiBin.toNat ≤ fiq.length →
      CalcBinPower false eqMask (frq.map some) (fiq.map some) loBin hiBin =
        some (((binRange loBin hiBin).map fun n =>
          frq.getD n.toNat 0 * frq.getD n.toNat 0 +
          fiq.getD n.toNat 0 * fiq.getD n.toNat 0).sum)) ∧
    (∀ (eqq frq fiq : List ℚ) (loBin hiBin : ℤ),
      0 ≤ loBin → hiBin.toNat ≤ eqq.length → hiBin.toNat ≤ frq.length →
      hiBin.toNat ≤ fiq.length →
      CalcBinPower true (eqq.map some) (frq.map some) (fiq.map some) loBin hiBin =
        some (((binRange loBin hiBin).map fun n =>
          frq.getD n.toNat 0 * eqq.getD n.toNat 0 *
            (frq.getD n.toNat 0 * eqq.getD n.toNat 0) +
          fiq.getD n.toNat 0 * eqq.getD n.toNat 0 *
            (fiq.getD n.toNat 0 * eqq.getD n.toNat 0)).sum)) ∧
    (∀ (eqEnabled : Bool) (eqMask fr fi : List Flt),
      CalcPowerF eqEnabled eqMask fr fi 256 (1/4) (1/2) =
        CalcBinPower eqEnabled eqMask fr fi 0 128 ∧
      CalcPowerF eqEnabled eqMask fr fi 256 (45/100) (1/10) =
        CalcBinPower eqEnabled eqMask fr fi 102 128 ∧
      CalcPowerF eqEnabled eqMask fr fi 256 (40/100) (2/10) =
        CalcBinPower eqEnabled eqMask fr fi 76 128) := by
  have hval1 : CalcPowerBins 256 (1/4) (1/2) = (0, 128) := by with_unfolding_all rfl
  have hval2 : CalcPowerBins 256 (45/100) (1/10) = (102, 128) := by with_unfolding_all rfl
  have hval3 : CalcPowerBins 256 (40/100) (2/10) = (76, 128) := by with_unfolding_all rfl
  refine ⟨?_, ?_, ⟨hval1, hval2, hval3⟩, ?_, ?_, ?_, ?_, ?_⟩
  · intro f hf
    unfold Freq2Bin
    have hc : (((256 : ℤ) : ℚ)) = (256 : ℚ) := by norm_num
    rw [hc]
    have hfloor : 0 ≤ Int.floor (f * (256 : ℚ)) := by
      apply Int.floor_nonneg.mpr
      positivity
    rw [Int.tmod_eq_emod hfloor (by norm_num)]
  · intro N fc bw
    constructor
    · intro h
      unfold CalcPowerBins
      rw [if_pos h]
    · intro h
      unfold CalcPowerBins
      rw [if_neg h]
  · intro pr hpr
    rw [hval1, hval2, hval3] at hpr
    simp only [List.mem_cons, List.not_mem_nil, or_false] at hpr
    rcases hpr with rfl | rfl | rfl <;> norm_num
  · intro loBin hiBin hle
    refine ⟨by unfold binRange; rw [List.length_map, List.length_range], fun n => ?_⟩
    constructor
    · exact binRange_bounds loBin hiBin n
    · rintro ⟨h1, h2⟩
      unfold binRange
      apply List.mem_map.mpr
      have hnl : (0 : ℤ) ≤ n - loBin := by omega
      refine ⟨(n - loBin).toNat, List.mem_range.mpr ?_, ?_⟩
      · rw [Int.lt_toNat, Int.toNat_of_nonneg hnl]
        omega
      · rw [Int.toNat_of_nonneg hnl]
        omega
  · intro eqMask frq fiq loBin hiBin hlo hfr hfi
    exact calcBinPower_disabled_sum eqMask frq fiq loBin hiBin hlo hfr hfi
  · intro eqq frq fiq loBin hiBin hlo heq hfr hfi
    exact calcBinPower_enabled_sum eqq frq fiq loBin hiBin hlo heq hfr hfi
  · intro eqEnabled eqMask fr fi
    refine ⟨?_, ?_, ?_⟩
    · unfold CalcPowerF
      rw [hval1]
    · unfold CalcPowerF
      rw [hval2]
    · unfold CalcPowerF
      rw [hval3]

/-- C3 witness: the mod form of Freq2Bin at a concrete nonnegative
frequency, the bump branch at a concrete coinciding pair, the half-open
range at (0, 2), and both in-band power sums on concrete spectra. -/
theorem c3_calcpower_bins_witness :
    Freq2Bin 256 (1/2) = Int.floor ((1/2 : ℚ) * 256) % 256 ∧
    CalcPowerBins 256 (1/2) 0 = (Freq2Bin 256 (1/2 - 0/2), Freq2Bin 256 (1/2 - 0/2) + 1) ∧
    (binRange 0 2).length = 2 ∧
    ((1 : ℤ) ∈ binRange 0 2) ∧
    CalcBinPower false [] ([1, 2, 3].map some) ([4, 5, 6].map some) 0 2 = some 46 ∧
    CalcBinPower true ([2, 2].map some) ([1, 3].map some) ([0, 1].map some) 0 2 =
      some 44 := by
  refine ⟨c3_calcpower_bins.1 (1/2) (by norm_num), ?_, ?_, ?_, ?_, ?_⟩
  · refine (c3_calcpower_bins.2.1 256 (1/2) 0).1 ?_
    norm_num
  · have hE := c3_calcpower_bins.2.2.2.2.1 0 2 (by norm_num)
    exact hE.1.trans (by decide)
  · have hE := c3_calcpower_bins.2.2.2.2.1 0 2 (by norm_num)
    exact (hE.2 1).mpr ⟨by norm_num, by norm_num⟩
  · have hF := c3_calcpower_bins.2.2.2.2.2.1 [] [1, 2, 3] [4, 5, 6] 0 2
      (by norm_num) (by decide) (by decide)
    rw [hF]
    with_unfolding_all rfl
  · have hG := c3_calcpower_bins.2.2.2.2.2.2.1 [2, 2] [1, 3] [0, 1] 0 2
      (by norm_num) (by decide) (by decide) (by decide)
    rw [hG]
    with_unfolding_all rfl
/-! ## Decision rule (C2) -/

theorem maxFold_getD (L : List Flt) :
    ∀ (l2 : List Flt) (k : ℕ) (acc : Flt × ℕ),
      (∀ j, j < l2.length → L.getD (k + j) none = l2.getD j none) →
      L.getD acc.2 none = acc.1 →
      L.getD (((List.enumFrom k l2).foldl
        (fun mi nx => if fgt nx.2 mi.1 then (nx.2, nx.1) else mi) acc).2) none =
      ((List.enumFrom k l2).foldl
        (fun mi nx => if fgt nx.2 mi.1 then (nx.2, nx.1) else mi) acc).1 := by
  intro l2
  induction l2 with
  | nil => intro k acc _ hacc; exact hacc
  | cons x t ih =>
    intro k acc hidx hacc
    have hstep : L.getD ((if fgt x acc.1 then (x, k) else acc).2) none =
        (if fgt x acc.1 then (x, k) else acc).1 := by
      by_cases hgt : fgt x acc.1 = true
      · rw [if_pos hgt]
        have h0 := hidx 0 (by simp)
        simpa using h0
      · rw [if_neg hgt]
        exact hacc
    have hshift : ∀ j, j < t.length → L.getD (k + 1 + j) none = t.getD j none := by
      intro j hj
      have := hidx (j + 1) (by simp; omega)
      rw [show k + (j + 1) = k + 1 + j by omega] at this
      rw [this]
      exact List.getD_cons_succ
    exact ih (k + 1) (if fgt x acc.1 then (x, k) else acc) hshift hstep

theorem maxFold_idx (L : ℕ) :
    ∀ (l2 : List Flt) (k : ℕ) (acc : Flt × ℕ),
      k + l2.length ≤ L →
      (acc.2 = 0 ∨ acc.2 < L) →
      (((List.enumFrom k l2).foldl
        (fun mi nx => if fgt nx.2 mi.1 then (nx.2, nx.1) else mi) acc).2 = 0 ∨
       ((List.enumFrom k l2).foldl
        (fun mi nx => if fgt nx.2 mi.1 then (nx.2, nx.1) else mi) acc).2 < L) := by
  intro l2
  induction l2 with
  | nil => intro k acc _ hacc; exact hacc
  | cons x t ih =>
    intro k acc hk hacc
    refine ih (k + 1) (if fgt x acc.1 then (x, k) else acc) (by simp at hk ⊢; omega) ?_
    by_cases hgt : fgt x acc.1 = true
    · rw [if_pos hgt]
      right
      simp at hk
      omega
    · rw [if_neg hgt]
      exact hacc

theorem maxF_getD (l : List Flt) (hne : l ≠ []) (hfin : ∀ y ∈ l, finiteGe y) :
    l.getD (MaxF l).2 none = (MaxF l).1 := by
  cases l with
  | nil => exact absurd rfl hne
  | cons x0 t =>
    have hx0 : finiteGe x0 := hfin x0 (by simp)
    have hstep : (x0 :: t).getD ((if fgt x0 (some (-fltMax)) then (x0, 0)
        else ((some (-fltMax) : Flt), 0)).2) none =
        (if fgt x0 (some (-fltMax)) then (x0, 0) else ((some (-fltMax) : Flt), 0)).1 := by
      by_cases hgt : fgt x0 (some (-fltMax)) = true
      · rw [if_pos hgt]
        rfl
      · rw [if_neg hgt]
        cases x0 with
        | none => exact absurd hx0 (by simp [finiteGe])
        | some q =>
          have hle : -fltMax ≤ q := hx0
          have hnl : ¬(-fltMax < q) := by
            intro hlt
            exact hgt (by simp [fgt, hlt])
          have : q = -fltMax := le_antisymm (not_lt.mp hnl) hle
          subst this
          rfl
    have hshift : ∀ j, j < t.length → (x0 :: t).getD (1 + j) none = t.getD j none := by
      intro j hj
      rw [show 1 + j = j + 1 by omega]
      exact List.getD_cons_succ
    exact maxFold_getD (x0 :: t) t 1 _ hshift hstep

theorem maxF_idx_lt (l : List Flt) (h : l.length = 10) : (MaxF l).2 < 10 := by
  have hfold := maxFold_idx 10 l 0 ((some (-fltMax) : Flt), 0) (by omega) (Or.inl rfl)
  have heq : MaxF l = (List.enumFrom 0 l).foldl
      (fun mi nx => if fgt nx.2 mi.1 then (nx.2, nx.1) else mi)
      ((some (-fltMax) : Flt), 0) := rfl
  rw [heq]
  rcases hfold with h0 | hlt
  · rw [h0]; norm_num
  · exact hlt

/-- C2: with midx and sidx the argmax indices over the 10 mono and stereo
features, the decision takes (candidates[midx], 1 channel) exactly when
monoFeat[midx] > stereoFeat[sidx] and (candidates[sidx], 2 channels)
otherwise, so equal maxima yield stereo — stated for feature vectors of
finite float values, where the running maximum always equals the feature at
the returned index; and for arbitrary feature vectors, NaN entries included,
the result is always one of the ten enumerated candidates with channel
count 1 or 2. -/
theorem c2_decision_rule :
    (∀ monoFeat stereoFeat : List Flt,
      monoFeat.length = 10 → stereoFeat.length = 10 →
      (∀ y ∈ monoFeat, finiteGe y) → (∀ y ∈ stereoFeat, finiteGe y) →
      (fgt (monoFeat.getD (MaxF monoFeat).2 none)
          (stereoFeat.getD (MaxF stereoFeat).2 none) = true →
        RunDecision monoFeat stereoFeat =
          ⟨theClasses.getD (MaxF monoFeat).2 default, 1⟩) ∧
      (fgt (monoFeat.getD (MaxF monoFeat).2 none)
          (stereoFeat.getD (MaxF stereoFeat).2 none) = false →
        RunDecision monoFeat stereoFeat =
          ⟨theClasses.getD (MaxF stereoFeat).2 default, 2⟩)) ∧
    (∀ monoFeat stereoFeat : List Flt,
      monoFeat.length = 10 → stereoFeat.length = 10 →
      (RunDecision monoFeat stereoFeat).format ∈ theClasses ∧
      ((RunDecision monoFeat stereoFeat).channels = 1 ∨
       (RunDecision monoFeat stereoFeat).channels = 2)) := by
  constructor
  · intro mf sf hlm hls hfm hfs
    have hnem : mf ≠ [] := by intro h; rw [h] at hlm; simp at hlm
    have hnes : sf ≠ [] := by intro h; rw [h] at hls; simp at hls
    have hm := maxF_getD mf hnem hfm
    have hs := maxF_getD sf hnes hfs
    constructor
    · intro hcond
      rw [hm, hs] at hcond
      unfold RunDecision
      rw [if_pos hcond]
    · intro hcond
      rw [hm, hs] at hcond
      unfold RunDecision
      rw [if_neg (by rw [hcond]; simp)]
  · intro mf sf hlm hls
    have hmi := maxF_idx_lt mf hlm
    have hsi := maxF_idx_lt sf hls
    have hmem : ∀ i, i < 10 → theClasses.getD i default ∈ theClasses := by
      intro i hi
      rw [List.getD_eq_getElem theClasses default (by simpa [theClasses] using hi)]
      exact List.getElem_mem _
    unfold RunDecision
    by_cases hgt : fgt (MaxF mf).1 (MaxF sf).1 = true
    · rw [if_pos hgt]
      exact ⟨hmem _ hmi, Or.inl rfl⟩
    · rw [if_neg hgt]
      exact ⟨hmem _ hsi, Or.inr rfl⟩

/-- C2 witness: the decision evaluated on concrete finite feature vectors in
which stereo holds the strict maximum, and on vectors with NaN entries. -/
theorem c2_decision_rule_witness :
    RunDecision
      [some 3, some 1, some 1, some 1, some 1, some 1, some 1, some 1, some 1, some 1]
      [some 1, some 5, some 1, some 1, some 1, some 1, some 1, some 1, some 1, some 1] =
      ⟨⟨.Int16, .Little⟩, 2⟩ ∧
    (RunDecision (List.replicate 10 none) (List.replicate 10 none)).format ∈ theClasses := by
  constructor
  · have h := (c2_decision_rule.1
      [some 3, some 1, some 1, some 1, some 1, some 1, some 1, some 1, some 1, some 1]
      [some 1, some 5, some 1, some 1, some 1, some 1, some 1, some 1, some 1, some 1]
      (by simp) (by simp) ?_ ?_).2 ?_
    · rw [h]
      congr 1
      · have hidx : (MaxF [some (1:ℚ), some 5, some 1, some 1, some 1, some 1, some 1,
            some 1, some 1, some 1]).2 = 1 := by
          unfold MaxF fltMax
          norm_num [List.enum, List.enumFrom, fgt]
        rw [hidx]
        rfl
    · intro y hy
      simp only [List.mem_cons, List.not_mem_nil, or_false] at hy
      rcases hy with rfl | rfl | rfl | rfl | rfl | rfl | rfl | rfl | rfl | rfl <;>
        · unfold finiteGe fltMax
          norm_num
    · intro y hy
      simp only [List.mem_cons, List.not_mem_nil, or_false] at hy
      rcases hy with rfl | rfl | rfl | rfl | rfl | rfl | rfl | rfl | rfl | rfl <;>
        · unfold finiteGe fltMax
          norm_num
    · have hm : (MaxF [some (3:ℚ), some 1, some 1, some 1, some 1, some 1, some 1,
          some 1, some 1, some 1]).2 = 0 := by
        unfold MaxF fltMax
        norm_num [List.enum, List.enumFrom, fgt]
      have hs : (MaxF [some (1:ℚ), some 5, some 1, some 1, some 1, some 1, some 1,
          some 1, some 1, some 1]).2 = 1 := by
        unfold MaxF fltMax
        norm_num [List.enum, List.enumFrom, fgt]
      rw [hm, hs]
      simp [fgt]
      norm_num
  · exact (c2_decision_rule.2 (List.replicate 10 none) (List.replicate 10 none)
      (by simp) (by simp)).1

/-! ## Integration loop (C6) -/

theorem rsLoop_eq_fold (host : EndiannessT) (file : List ℕ) (fc : FormatClassT)
    (stride : ℕ) :
    ∀ (fuel n : ℕ) (st : RdState) (sig : List Flt),
      rsLoop host file fc stride fuel n st sig =
        (rsWindows host file fc stride fuel n st).foldl AddF sig := by
  intro fuel
  induction fuel with
  | zero => intro n st sig; rfl
  | succ f ih =>
    intro n st sig
    by_cases h : (readSamplesP host file st 1024 stride fc).1 = 1024
    · simp only [rsLoop, rsWindows, h, if_pos]
      rw [ih]
      rfl
    · simp only [rsLoop, rsWindows, if_neg h]
      rfl

theorem rsWindows_length_le (host : EndiannessT) (file : List ℕ) (fc : FormatClassT)
    (stride : ℕ) :
    ∀ (fuel n : ℕ) (st : RdState),
      (rsWindows host file fc stride fuel n st).length ≤ fuel := by
  intro fuel
  induction fuel with
  | zero => intro n st; simp [rsWindows]
  | succ f ih =>
    intro n st
    by_cases h : (readSamplesP host file st 1024 stride fc).1 = 1024
    · simp only [rsWindows, h, if_pos]
      simpa using ih (n + 1) _
    · simp only [rsWindows, if_neg h]
      simp

/-- C6: ReadSignal converts the first window unconditionally, then the loop
integrates exactly the windows listed by `rsWindows` — one per full read, a
decoherence read of n+1 samples after each at iteration index n, stopping at
the first short read or after 31 more windows.  The signal buffer is the
element-wise sum of the first window and those up to 31 windows, so between
1 and 32 windows are integrated and at least one always is. -/
theorem c6_read_signal_integration (host : EndiannessT) (file : List ℕ)
    (fc : FormatClassT) (stride signalStart : ℕ) (raw0 : List ℕ) :
    ReadSignal host file fc stride signalStart raw0 =
      (ReadSignalRest host file fc stride signalStart raw0).foldl AddF
        (ReadSignalFirst host file fc stride signalStart raw0) ∧
    (ReadSignalRest host file fc stride signalStart raw0).length ≤ 31 := by
  unfold ReadSignal ReadSignalRest ReadSignalFirst
  by_cases h : (readSamplesP host file ⟨signalStart, raw0⟩ 1024 stride fc).1 = 1024
  · simp only [h, if_pos]
    exact ⟨rsLoop_eq_fold host file fc stride 31 1 _ _,
      rsWindows_length_le host file fc stride 31 1 _⟩
  · simp only [if_neg h]
    simp

/-! ## Unconditional first-window conversion (C10) -/

/-- C10: ConvertSamples always converts exactly cSiglen = 1024 elements out
of the raw buffer whatever the read returned; when the first read of a
candidate pass is short the loop exits at once and the signal buffer is the
conversion of the raw buffer as it stands; and for a file too short to
supply a full window the leftover raw-buffer contents flow into the signal
buffer: two runs over the same short file differing only in the prior raw
buffer contents produce different signal buffers. -/
theorem c10_convert_unconditional :
    (∀ (host : EndiannessT) (fmt : FormatT) (raw : List ℕ),
      (ConvertSamplesF host fmt raw).length = 1024) ∧
    (∀ (host : EndiannessT) (file : List ℕ) (fc : FormatClassT)
      (stride signalStart : ℕ) (raw0 : List ℕ),
      (readSamplesP host file ⟨signalStart, raw0⟩ 1024 stride fc).1 ≠ 1024 →
      ReadSignal host file fc stride signalStart raw0 =
        ConvertSamplesF host fc.format
          (readSamplesP host file ⟨signalStart, raw0⟩ 1024 stride fc).2.raw) ∧
    ReadSignal .Little (List.replicate 1024 0) probeClass 1 1024 (List.replicate 8192 42) ≠
      ReadSignal .Little (List.replicate 1024 0) probeClass 1 1024 (List.replicate 8192 0) := by
  refine ⟨?_, ?_, ?_⟩
  · intro host fmt raw
    unfold ConvertSamplesF
    simp
  · intro host file fc stride signalStart raw0 h
    unfold ReadSignal
    simp only [if_neg h]
  · intro h
    have h42 : (ReadSignal .Little (List.replicate 1024 0) probeClass 1 1024
        (List.replicate 8192 42)).getD 0 none = some 42 := by with_unfolding_all rfl
    have h00 : (ReadSignal .Little (List.replicate 1024 0) probeClass 1 1024
        (List.replicate 8192 0)).getD 0 none = some 0 := by with_unfolding_all rfl
    rw [h] at h42
    rw [h00] at h42
    have : (0 : ℚ) = 42 := Option.some.inj h42
    norm_num at this

/-- C10 witness: the short-read branch applied to the concrete 1024-byte
file, whose first candidate read returns 0 samples. -/
theorem c10_convert_unconditional_witness :
    ReadSignal .Little (List.replicate 1024 0) probeClass 1 1024 (List.replicate 8192 42) =
      ConvertSamplesF .Little probeClass.format
        (readSamplesP .Little (List.replicate 1024 0) ⟨1024, List.replicate 8192 42⟩
          1024 1 probeClass).2.raw := by
  refine c10_convert_unconditional.2.1 .Little (List.replicate 1024 0) probeClass 1 1024
    (List.replicate 8192 42) ?_
  have hact : (readSamplesP .Little (List.replicate 1024 0) ⟨1024, List.replicate 8192 42⟩
      1024 1 probeClass).1 = 0 := by with_unfolding_all rfl
  rw [hact]
  norm_num

/-! ## Preprocessing invariants (C5) -/

theorem fadd_foldl_map_some (qs : List ℚ) :
    ∀ a : ℚ, (qs.map some).foldl fadd (some a) = some (a + qs.sum) := by
  induction qs with
  | nil => intro a; simp
  | cons x t ih =>
    intro a
    simp only [List.map_cons, List.foldl_cons, List.sum_cons]
    rw [show fadd (some a) (some x) = some (a + x) from rfl, ih]
    ring_nf

theorem rmsSqF_foldl_map_some (qs : List ℚ) :
    ∀ a : ℚ, (qs.map some).foldl (fun c x => fadd c (fmul x x)) (some a) =
      some (a + (qs.map fun x => x * x).sum) := by
  induction qs with
  | nil => intro a; simp
  | cons x t ih =>
    intro a
    simp only [List.map_cons, List.foldl_cons, List.sum_cons]
    rw [show fadd (some a) (fmul (some x) (some x)) = some (a + x * x) from rfl, ih]
    congr 1
    ring

theorem RmsSqF_map_some (qs : List ℚ) :
    RmsSqF (qs.map some) = some ((qs.map fun x => x * x).sum) := by
  unfold RmsSqF
  rw [rmsSqF_foldl_map_some qs 0, zero_add]

theorem MeanF_map_some (qs : List ℚ) (h : qs ≠ []) :
    MeanF (qs.map some) = some (qs.sum / qs.length) := by
  unfold MeanF
  rw [fadd_foldl_map_some qs 0, zero_add]
  have hlen : ((qs.map (some : ℚ → Flt)).length : ℚ) = (qs.length : ℚ) := by simp
  rw [hlen]
  have hne : ((qs.length : ℚ)) ≠ 0 := by
    simp only [ne_eq, Nat.cast_eq_zero, List.length_eq_zero]
    exact h
  simp [fdiv, hne]

theorem SubF_map_some (qs : List ℚ) (m : ℚ) :
    SubF (qs.map some) (some m) = (qs.map fun x => x - m).map some := by
  unfold SubF
  rw [List.map_map, List.map_map]
  rfl

theorem DivF_map_some (qs : List ℚ) (c : ℚ) (hc : c ≠ 0) :
    DivF (qs.map some) (some c) = (qs.map fun x => x / c).map some := by
  unfold DivF
  rw [List.map_map, List.map_map]
  apply List.map_congr_left
  intro x _
  simp [Function.comp, fdiv, hc]

theorem zipWith_fmul_map_some (as bs : List ℚ) :
    List.zipWith fmul (as.map some) (bs.map some) = (List.zipWith (· * ·) as bs).map some := by
  induction as generalizing bs with
  | nil => simp
  | cons a t ih =>
    cases bs with
    | nil => simp
    | cons b u => simp [ih, fmul]

theorem AddF_map_some (as bs : List ℚ) :
    AddF (as.map some) (bs.map some) = (List.zipWith (· + ·) as bs).map some := by
  unfold AddF
  induction as generalizing bs with
  | nil => simp
  | cons a t ih =>
    cases bs with
    | nil => simp
    | cons b u => simp [ih, fadd]

theorem sum_map_sub (qs : List ℚ) (m : ℚ) :
    (qs.map fun x => x - m).sum = qs.sum - qs.length * m := by
  induction qs with
  | nil => simp
  | cons x t ih =>
    simp only [List.map_cons, List.sum_cons, List.length_cons, ih]
    push_cast
    ring

theorem sum_map_div (qs : List ℚ) (c : ℚ) :
    (qs.map fun x => x / c).sum = qs.sum / c := by
  induction qs with
  | nil => simp
  | cons x t ih =>
    simp only [List.map_cons, List.sum_cons, ih]
    ring

theorem sum_map_mul_div (qs : List ℚ) (c : ℚ) :
    (qs.map fun x => (x * x) / c).sum = (qs.map fun x => x * x).sum / c := by
  induction qs with
  | nil => simp
  | cons x t ih =>
    simp only [List.map_cons, List.sum_cons, ih]
    ring

theorem filterPolyphase_shadow (qs ws : List ℚ) (hq : qs.length = 1024)
    (hw : ws.length = 1024) :
    ∃ zs : List ℚ, FilterPolyphaseF (qs.map some) (ws.map some) 4 1024 = zs.map some ∧
      zs.length = 256 := by
  unfold FilterPolyphaseF
  rw [zipWith_fmul_map_some qs ws]
  have hxw : (List.zipWith (· * ·) qs ws).length = 1024 := by
    rw [List.length_zipWith, hq, hw]
    norm_num
  set xq := List.zipWith (· * ·) qs ws with hxq
  have hchunk : ∀ n : ℕ, n < 4 →
      ((xq.map some).drop (n * (1024 / 4))).take (1024 / 4) =
        ((xq.drop (n * 256)).take 256).map some ∧
      ((xq.drop (n * 256)).take 256).length = 256 := by
    intro n hn
    constructor
    · rw [show (1024 / 4 : ℕ) = 256 from rfl, ← List.map_drop, ← List.map_take]
    · rw [List.length_take, List.length_drop, hxw]
      interval_cases n <;> norm_num
  have hrange : List.range 4 = [0, 1, 2, 3] := rfl
  rw [hrange]
  simp only [List.foldl_cons, List.foldl_nil]
  have h0 : (List.replicate (1024 / 4) (some (0:ℚ))) = (List.replicate 256 (0:ℚ)).map some := by
    rw [List.map_replicate]
  rw [h0]
  obtain ⟨hc0, hl0⟩ := hchunk 0 (by norm_num)
  obtain ⟨hc1, hl1⟩ := hchunk 1 (by norm_num)
  obtain ⟨hc2, hl2⟩ := hchunk 2 (by norm_num)
  obtain ⟨hc3, hl3⟩ := hchunk 3 (by norm_num)
  rw [hc0, hc1, hc2, hc3, AddF_map_some, AddF_map_some, AddF_map_some, AddF_map_some]
  refine ⟨_, rfl, ?_⟩
  rw [List.length_zipWith, List.length_zipWith, List.length_zipWith, List.length_zipWith]
  rw [hl0, hl1, hl2, hl3]
  simp

/-- C5: for any finite signal and window of length S = 1024 and any value r
with r² equal to the sum of squares of the folded, DC-removed buffer (r is
what sqrtf returns there) and r nonzero, the normalized buffer has length
S/P = 256, mean exactly 0 and sum of squares exactly 1 — the Rms the source
computes is sqrt of the plain sum of squares, the L2 norm, with no division
by the length. -/
theorem c5_preprocess_invariants (qs ws : List ℚ) (r : ℚ)
    (hq : qs.length = 1024) (hw : ws.length = 1024)
    (hr : IsSqrtF (RmsSqF (preprocessFoldDC (qs.map some) (ws.map some))) (some r))
    (hrz : r ≠ 0) :
    (DivF (preprocessFoldDC (qs.map some) (ws.map some)) (some r)).length = 256 ∧
    MeanF (DivF (preprocessFoldDC (qs.map some) (ws.map some)) (some r)) = some 0 ∧
    RmsSqF (DivF (preprocessFoldDC (qs.map some) (ws.map some)) (some r)) = some 1 := by
  obtain ⟨zs, hz, hzl⟩ := filterPolyphase_shadow qs ws hq hw
  have hzne : zs ≠ [] := by
    intro h
    rw [h] at hzl
    simp at hzl
  have hmean : MeanF (zs.map some) = some (zs.sum / 256) := by
    rw [MeanF_map_some zs hzne, hzl]
    norm_num
  have hpre : preprocessFoldDC (qs.map some) (ws.map some) =
      (zs.map fun x => x - zs.sum / 256).map some := by
    unfold preprocessFoldDC
    rw [hz, hmean, SubF_map_some]
  set cs := zs.map fun x => x - zs.sum / 256 with hcs
  have hcsl : cs.length = 256 := by rw [hcs, List.length_map, hzl]
  have hcss : cs.sum = 0 := by
    rw [hcs, sum_map_sub, hzl]
    push_cast
    field_simp
  have hS : RmsSqF (cs.map some) = some ((cs.map fun x => x * x).sum) := RmsSqF_map_some cs
  set S := (cs.map fun x => x * x).sum with hSdef
  have hr2 : 0 ≤ r ∧ r * r = S := by
    rw [hpre, hS] at hr
    exact hr
  have hSne : S ≠ 0 := by
    rw [← hr2.2]
    exact mul_ne_zero hrz hrz
  have hdiv : DivF (cs.map some) (some r) = (cs.map fun x => x / r).map some :=
    DivF_map_some cs r hrz
  rw [hpre, hdiv]
  set ds := cs.map fun x => x / r with hds
  have hdsl : ds.length = 256 := by rw [hds, List.length_map, hcsl]
  have hdsne : ds ≠ [] := by
    intro h
    rw [h] at hdsl
    simp at hdsl
  refine ⟨by rw [List.length_map, hdsl], ?_, ?_⟩
  · rw [MeanF_map_some ds hdsne, hdsl]
    rw [hds, sum_map_div, hcss]
    norm_num
  · rw [RmsSqF_map_some ds]
    have hsq : ds.map (fun x => x * x) = cs.map fun x => (x * x) / (r * r) := by
      rw [hds, List.map_map]
      apply List.map_congr_left
      intro x _
      simp only [Function.comp]
      ring
    rw [hsq]
    rw [sum_map_mul_div cs (r * r), ← hSdef, hr2.2, div_self hSne]

/-- C5 witness: the invariants evaluated on the concrete signal with samples
1, −1, 7, −7 (fold sum of squares 100, rms 10). -/
theorem c5_preprocess_invariants_witness :
    MeanF (DivF (preprocessFoldDC (c5sigQ.map some) (c5winQ.map some)) (some 10)) = some 0 ∧
    RmsSqF (DivF (preprocessFoldDC (c5sigQ.map some) (c5winQ.map some)) (some 10)) = some 1 := by
  have hpre : preprocessFoldDC (c5sigQ.map some) (c5winQ.map some) = c5y := by
    unfold preprocessFoldDC
    have hy : FilterPolyphaseF (c5sigQ.map some) (c5winQ.map some) 4 1024 = c5y := by
      with_unfolding_all rfl
    rw [hy]
    have hm : MeanF c5y = some 0 := by with_unfolding_all rfl
    rw [hm]
    with_unfolding_all rfl
  have hr : IsSqrtF (RmsSqF (preprocessFoldDC (c5sigQ.map some) (c5winQ.map some)))
      (some 10) := by
    rw [hpre]
    have h2 : RmsSqF c5y = some 100 := by with_unfolding_all rfl
    rw [h2]
    exact ⟨by norm_num, by norm_num⟩
  have h := c5_preprocess_invariants c5sigQ c5winQ 10
    (by unfold c5sigQ; simp) (by unfold c5winQ; simp) hr (by norm_num)
  exact ⟨h.2.1, h.2.2⟩

/-! ## Signal search (C4) -/

theorem overwrite_zero (raw data : List ℕ) :
    overwrite raw 0 data = data ++ raw.drop data.length := by
  simp [overwrite]

theorem probe_read (file : List ℕ) (p : ℕ) (raw : List ℕ) :
    readSamplesP .Little file ⟨p, raw⟩ 1024 1 probeClass =
      (min 1024 (file.length - p),
       ⟨p + min 1024 (file.length - p),
        overwrite raw 0 ((file.drop p).take (min 1024 (file.length - p)))⟩) := by
  unfold readSamplesP probeClass readRaw linearRead
  norm_num

theorem bytesVal_take_one (raw : List ℕ) : ∀ n : ℕ,
    bytesVal .Little ((raw.drop n).take 1) = raw.getD n 0 := by
  induction raw with
  | nil => intro n; cases n <;> rfl
  | cons a t ih =>
    intro n
    cases n with
    | zero => simp [bytesVal]
    | succ m => simpa using ih m

theorem convertU8_take64 (raw : List ℕ) :
    (ConvertSamplesF .Little .Uint8 raw).take 64 =
      (List.range 64).map fun n => some ((raw.getD n 0 : ℕ) : ℚ) := by
  unfold ConvertSamplesF
  rw [← List.map_take, List.take_range, show (64 ⊓ 1024 : ℕ) = 64 by norm_num]
  apply List.map_congr_left
  intro n _
  simp only [formatWidth, mul_one, decodeSample]
  rw [bytesVal_take_one]

theorem rmsHitRaw_eq (w t : List ℕ) (hw : w.length = 1024) :
    rmsHitRaw (w ++ t) = rmsHitRaw w := by
  unfold rmsHitRaw
  rw [convertU8_take64, convertU8_take64]
  have hmaps : ((List.range 64).map fun n => some (((w ++ t).getD n 0 : ℕ) : ℚ)) =
      (List.range 64).map fun n => some ((w.getD n 0 : ℕ) : ℚ) := by
    apply List.map_congr_left
    intro n hn
    have hn64 : n < 64 := List.mem_range.mp hn
    rw [List.getD_append w t 0 n (by omega)]
  rw [hmaps]

theorem gridRead_full (file : List ℕ) : ∀ (k p : ℕ) (raw : List ℕ),
    1 ≤ k → p + 1024 * k ≤ file.length →
    gridRead file k ⟨p, raw⟩ =
      (1024, ⟨p + 1024 * k,
        (file.drop (p + 1024 * k - 1024)).take 1024 ++ raw.drop 1024⟩) := by
  intro k
  induction k with
  | zero => intro p raw h1 _; omega
  | succ n ih =>
    intro p raw h1 hlen
    have hfull : min 1024 (file.length - p) = 1024 := by omega
    have harr : overwrite raw 0 ((file.drop p).take 1024) =
        (file.drop p).take 1024 ++ raw.drop 1024 := by
      rw [overwrite_zero]
      have hdl : ((file.drop p).take 1024).length = 1024 := by
        rw [List.length_take, List.length_drop]
        omega
      rw [hdl]
    cases n with
    | zero =>
      show gridRead file 1 ⟨p, raw⟩ = _
      unfold gridRead
      rw [probe_read, hfull, harr]
      rw [show p + 1024 * (0 + 1) - 1024 = p by omega, show p + 1024 * (0 + 1) = p + 1024 by ring]
    | succ m =>
      show gridRead file (m + 1)
          ((readSamplesP .Little file ⟨p, raw⟩ 1024 1 probeClass).2) = _
      rw [probe_read, hfull]
      show gridRead file (m + 1) ⟨p + 1024, overwrite raw 0 ((file.drop p).take 1024)⟩ = _
      rw [harr]
      have hrec := ih (p + 1024) ((file.drop p).take 1024 ++ raw.drop 1024)
        (by omega) (by omega)
      have htail : ((file.drop p).take 1024 ++ raw.drop 1024).drop 1024 = raw.drop 1024 := by
        apply List.drop_left'
        rw [List.length_take, List.length_drop]
        omega
      rw [hrec, htail]
      rw [show p + 1024 + 1024 * (m + 1) - 1024 = p + 1024 * (m + 1 + 1) - 1024 by omega,
        show p + 1024 + 1024 * (m + 1) = p + 1024 * (m + 1 + 1) by ring]

theorem gridRead_short (file : List ℕ) : ∀ (k p : ℕ) (raw : List ℕ),
    1 ≤ k → p ≤ file.length → file.length < p + 1024 * k →
    (gridRead file k ⟨p, raw⟩).1 ≠ 1024 := by
  intro k
  induction k with
  | zero => intro p raw h1 _ _; omega
  | succ n ih =>
    intro p raw h1 hple hlen
    cases n with
    | zero =>
      show (gridRead file 1 ⟨p, raw⟩).1 ≠ 1024
      unfold gridRead
      rw [probe_read]
      show min 1024 (file.length - p) ≠ 1024
      omega
    | succ m =>
      show (gridRead file (m + 1)
          ((readSamplesP .Little file ⟨p, raw⟩ 1024 1 probeClass).2)).1 ≠ 1024
      rw [probe_read]
      show (gridRead file (m + 1)
          ⟨p + min 1024 (file.length - p),
           overwrite raw 0 ((file.drop p).take (min 1024 (file.length - p)))⟩).1 ≠ 1024
      apply ih
      · omega
      · omega
      · omega

theorem fssLoop_ge (file : List ℕ) : ∀ (fuel i : ℕ) (st : RdState),
    1024 ≤ fssLoop file fuel i st := by
  intro fuel
  induction fuel with
  | zero => intro i st; exact le_refl 1024
  | succ f ih =>
    intro i st
    unfold fssLoop
    by_cases hhit : rmsHitRaw st.raw = true
    · rw [if_pos hhit]
      omega
    · rw [if_neg hhit]
      by_cases hg : (gridRead file 32 st).1 = 1024
      · rw [if_pos hg]
        exact ih (i + 1) _
      · rw [if_neg hg]

theorem fssLoop_spec (file : List ℕ) : ∀ (d i fuel : ℕ) (tail : List ℕ),
    2048 + (i + d) * 32768 ≤ file.length →
    windowHit file (i + d) = true →
    (∀ j, i ≤ j → j < i + d → windowHit file j = false) →
    d < fuel →
    fssLoop file fuel i ⟨2048 + i * 32768,
      (file.drop (1024 + i * 32768)).take 1024 ++ tail⟩ = 1024 + (i + d) * 32768 := by
  intro d
  induction d with
  | zero =>
    intro i fuel tail hlen hhit _ hf
    have hwl : ((file.drop (1024 + i * 32768)).take 1024).length = 1024 := by
      rw [List.length_take, List.length_drop]
      omega
    cases fuel with
    | zero => omega
    | succ f =>
      unfold fssLoop
      rw [if_pos ?_]
      · omega
      · show rmsHitRaw ((file.drop (1024 + i * 32768)).take 1024 ++ tail) = true
        rw [rmsHitRaw_eq _ _ hwl]
        simpa using hhit
  | succ d ih =>
    intro i fuel tail hlen hhit hmiss hf
    have hwl : ((file.drop (1024 + i * 32768)).take 1024).length = 1024 := by
      rw [List.length_take, List.length_drop]
      have : 2048 + i * 32768 ≤ file.length := by
        have h1 : i * 32768 ≤ (i + (d + 1)) * 32768 := by
          apply Nat.mul_le_mul_right
          omega
        omega
      omega
    cases fuel with
    | zero => omega
    | succ f =>
      unfold fssLoop
      rw [if_neg ?_]
      · have hgfull := gridRead_full file 32 (2048 + i * 32768)
          ((file.drop (1024 + i * 32768)).take 1024 ++ tail) (by omega) ?_
        · rw [hgfull]
          rw [if_pos rfl]
          have htail : (((file.drop (1024 + i * 32768)).take 1024 ++ tail)).drop 1024 =
              tail := List.drop_left' hwl
          simp only [htail]
          have hp1 : 2048 + i * 32768 + 1024 * 32 = 2048 + (i + 1) * 32768 := by ring
          have hp2 : 2048 + (i + 1) * 32768 - 1024 = 1024 + (i + 1) * 32768 := by omega
          rw [hp1, hp2]
          have hres := ih (i + 1) f tail ?_ ?_ ?_ (by omega)
          · rw [hres]
            congr 2
            omega
          · have : i + 1 + d = i + (d + 1) := by omega
            rw [this]
            exact hlen
          · have : i + 1 + d = i + (d + 1) := by omega
            rw [this]
            exact hhit
          · intro j hj1 hj2
            exact hmiss j (by omega) (by omega)
        · have h1 : (i + 1) * 32768 ≤ (i + (d + 1)) * 32768 := by
            apply Nat.mul_le_mul_right
            omega
          omega
      · show ¬rmsHitRaw ((file.drop (1024 + i * 32768)).take 1024 ++ tail) = true
        rw [rmsHitRaw_eq _ _ hwl]
        have := hmiss i (le_refl i) (by omega)
        simpa using this

theorem fssLoop_nohit (file : List ℕ) : ∀ (fuel i : ℕ) (tail : List ℕ),
    2048 + i * 32768 ≤ file.length →
    (∀ j, 2048 + j * 32768 ≤ file.length → windowHit file j = false) →
    fssLoop file fuel i ⟨2048 + i * 32768,
      (file.drop (1024 + i * 32768)).take 1024 ++ tail⟩ = 1024 := by
  intro fuel
  induction fuel with
  | zero => intro i tail _ _; rfl
  | succ f ih =>
    intro i tail hlen hmiss
    have hwl : ((file.drop (1024 + i * 32768)).take 1024).length = 1024 := by
      rw [List.length_take, List.length_drop]
      omega
    unfold fssLoop
    rw [if_neg ?_]
    · by_cases hfull : 2048 + (i + 1) * 32768 ≤ file.length
      · have hgfull := gridRead_full file 32 (2048 + i * 32768)
          ((file.drop (1024 + i * 32768)).take 1024 ++ tail) (by omega) (by omega)
        rw [hgfull, if_pos rfl]
        have htail : (((file.drop (1024 + i * 32768)).take 1024 ++ tail)).drop 1024 =
            tail := List.drop_left' hwl
        simp only [htail]
        have hp1 : 2048 + i * 32768 + 1024 * 32 = 2048 + (i + 1) * 32768 := by ring
        have hp2 : 2048 + (i + 1) * 32768 - 1024 = 1024 + (i + 1) * 32768 := by omega
        rw [hp1, hp2]
        exact ih (i + 1) tail hfull hmiss
      · have hgshort := gridRead_short file 32 (2048 + i * 32768)
          ((file.drop (1024 + i * 32768)).take 1024 ++ tail) (by omega) (by omega) (by omega)
        rw [if_neg hgshort]
    · show ¬rmsHitRaw ((file.drop (1024 + i * 32768)).take 1024 ++ tail) = true
      rw [rmsHitRaw_eq _ _ hwl]
      have := hmiss i hlen
      simpa using this

/-- C4: FindSignalStart skips the fixed 1024-byte header, probes successive
1024-byte windows as (Uint8, Little) on a 32·1024-byte grid and fixes
signalStart = headerSkip + i·32·1024 at the first window whose RMS reaches
cMinRms after i unsuccessful grid advances; if EOF arrives first the offset
stays at headerSkip = 1024; and the result is never below headerSkip.  The
NaN exit of the loop is unreachable since the probe converts unsigned bytes,
whose RMS is a finite float. -/
theorem c4_find_signal_start :
    (∀ (file raw0 : List ℕ), 1024 ≤ FindSignalStart file raw0) ∧
    (∀ (file raw0 : List ℕ) (i : ℕ),
      2048 + i * 32768 ≤ file.length →
      windowHit file i = true →
      (∀ j, j < i → windowHit file j = false) →
      FindSignalStart file raw0 = 1024 + i * 32768) ∧
    (∀ (file raw0 : List ℕ),
      (∀ j, 2048 + j * 32768 ≤ file.length → windowHit file j = false) →
      FindSignalStart file raw0 = 1024) := by
  have hunf : ∀ (file raw0 : List ℕ), FindSignalStart file raw0 =
      if (readSamplesP .Little file
            ⟨(readSamplesP .Little file ⟨0, raw0⟩ 1024 1 probeClass).2.pos,
             List.replicate 8192 0⟩ 1024 1 probeClass).1 = 1024
      then fssLoop file (file.length + 1) 0
        (readSamplesP .Little file
            ⟨(readSamplesP .Little file ⟨0, raw0⟩ 1024 1 probeClass).2.pos,
             List.replicate 8192 0⟩ 1024 1 probeClass).2
      else 1024 := fun _ _ => rfl
  have hstate : ∀ (file raw0 : List ℕ), 2048 ≤ file.length →
      (readSamplesP .Little file
          ⟨(readSamplesP .Little file ⟨0, raw0⟩ 1024 1 probeClass).2.pos,
           List.replicate 8192 0⟩ 1024 1 probeClass) =
        (1024, ⟨2048, (file.drop 1024).take 1024 ++ (List.replicate 8192 0).drop 1024⟩) := by
    intro file raw0 hL
    have hinner : (readSamplesP .Little file ⟨0, raw0⟩ 1024 1 probeClass).2.pos = 1024 := by
      rw [probe_read]
      show 0 + min 1024 (file.length - 0) = 1024
      omega
    rw [hinner, probe_read]
    have hm2 : min 1024 (file.length - 1024) = 1024 := by omega
    simp only [hm2]
    have hdl : ((file.drop 1024).take 1024).length = 1024 := by
      rw [List.length_take, List.length_drop]
      omega
    rw [overwrite_zero, hdl]
  refine ⟨?_, ?_, ?_⟩
  · intro file raw0
    rw [hunf]
    by_cases h : (readSamplesP .Little file
        ⟨(readSamplesP .Little file ⟨0, raw0⟩ 1024 1 probeClass).2.pos,
         List.replicate 8192 0⟩ 1024 1 probeClass).1 = 1024
    · rw [if_pos h]
      exact fssLoop_ge file _ 0 _
    · rw [if_neg h]
  · intro file raw0 i hlen hhit hmiss
    have hL : 2048 ≤ file.length := by omega
    rw [hunf, hstate file raw0 hL]
    rw [if_pos rfl]
    have hspec := fssLoop_spec file i 0 (file.length + 1)
      ((List.replicate 8192 0).drop 1024) ?_ ?_ ?_ ?_
    · have h0 : (2048 : ℕ) + 0 * 32768 = 2048 := by norm_num
      have h1 : (1024 : ℕ) + 0 * 32768 = 1024 := by norm_num
      rw [h0, h1] at hspec
      rw [hspec]
      congr 2
      omega
    · simpa using hlen
    · simpa using hhit
    · intro j hj1 hj2
      exact hmiss j (by omega)
    · have : i ≤ i * 32768 := by
        calc i ≤ i * 1 := by omega
          _ ≤ i * 32768 := by
            apply Nat.mul_le_mul_left
            omega
      omega
  · intro file raw0 hmiss
    by_cases hL : 2048 ≤ file.length
    · rw [hunf, hstate file raw0 hL]
      rw [if_pos rfl]
      have hspec := fssLoop_nohit file (file.length + 1) 0
        ((List.replicate 8192 0).drop 1024) (by simpa using hL) hmiss
      have h0 : (2048 : ℕ) + 0 * 32768 = 2048 := by norm_num
      have h1 : (1024 : ℕ) + 0 * 32768 = 1024 := by norm_num
      rw [h0, h1] at hspec
      exact hspec
    · have hc : (readSamplesP .Little file
          ⟨(readSamplesP .Little file ⟨0, raw0⟩ 1024 1 probeClass).2.pos,
           List.replicate 8192 0⟩ 1024 1 probeClass).1 ≠ 1024 := by
        rw [probe_read]
        show min 1024 (file.length - (0 + min 1024 (file.length - 0))) ≠ 1024
        omega
      rw [hunf, if_neg hc]

/-- C4 witness: the search applied to a file with 1024 bytes of header and
an immediately hot window (result headerSkip + 0), and to an all-silent
2048-byte file (result headerSkip). -/
theorem c4_find_signal_start_witness :
    FindSignalStart c4fileA (List.replicate 8192 0) = 1024 + 0 * 32768 ∧
    FindSignalStart c4fileB (List.replicate 8192 0) = 1024 ∧
    1024 ≤ FindSignalStart [] [] := by
  refine ⟨?_, ?_, c4_find_signal_start.1 [] []⟩
  · apply c4_find_signal_start.2.1
    · show 2048 + 0 * 32768 ≤ c4fileA.length
      unfold c4fileA
      simp
    · show windowHit c4fileA 0 = true
      have hw : (c4fileA.drop (1024 + 0 * 32768)).take 1024 = List.replicate 1024 3 := by
        with_unfolding_all rfl
      unfold windowHit
      rw [hw]
      have h64 : (ConvertSamplesF .Little .Uint8 (List.replicate 1024 3)).take 64 =
          (List.range 64).map fun _ => some (3 : ℚ) := by
        rw [convertU8_take64]
        apply List.map_congr_left
        intro n hn
        have hval : (List.replicate 1024 3).getD n 0 = 3 := by
          have hn1024 : n < 1024 := by
            have := List.mem_range.mp hn
            omega
          rw [List.getD_eq_getElem _ _ (by simpa using hn1024)]
          simp only [List.getElem_replicate]
        rw [hval]
        norm_num
      unfold rmsHitRaw
      rw [h64]
      have hrms : RmsSqF ((List.range 64).map fun _ => some (3 : ℚ)) = some 576 := by
        with_unfolding_all rfl
      rw [hrms]
      norm_num [cMinRmsSq]
    · intro j hj
      omega
  · apply c4_find_signal_start.2.2
    intro j hj
    have hj0 : j = 0 := by
      by_contra hne
      have : 1 ≤ j := by omega
      have : 32768 ≤ j * 32768 := by
        calc (32768 : ℕ) = 1 * 32768 := by norm_num
          _ ≤ j * 32768 := by
            apply Nat.mul_le_mul_right
            omega
      unfold c4fileB at hj
      simp at hj
      omega
    subst hj0
    show windowHit c4fileB 0 = false
    have hw : (c4fileB.drop (1024 + 0 * 32768)).take 1024 = List.replicate 1024 0 := by
      with_unfolding_all rfl
    unfold windowHit
    rw [hw]
    have h64 : (ConvertSamplesF .Little .Uint8 (List.replicate 1024 0)).take 64 =
        (List.range 64).map fun _ => some (0 : ℚ) := by
      rw [convertU8_take64]
      apply List.map_congr_left
      intro n hn
      have hval : (List.replicate 1024 0).getD n 0 = 0 := by
        have hn1024 : n < 1024 := by
          have := List.mem_range.mp hn
          omega
        rw [List.getD_eq_getElem _ _ (by simpa using hn1024)]
        simp only [List.getElem_replicate]
      rw [hval]
      norm_num
    unfold rmsHitRaw
    rw [h64]
    have hrms : RmsSqF ((List.range 64).map fun _ => some (0 : ℚ)) = some 0 := by
      with_unfolding_all rfl
    rw [hrms]
    norm_num [cMinRmsSq]
